import Mathlib

/-!
# RethinkRAW: file utilities, DNG converter invocation and photo request dispatch

A shallow embedding of `pkg/osutil/file.go`, `dng.go` and `http_photo.go`, and proofs
about it.

* `file.go`. File names are lists of characters (`List Char`), which covers every Go
  string that is valid UTF-8; Go's `regexp` decodes its input rune by rune, so a
  pattern such as `.` consumes one character of the list. The pattern of
  `newFilenameRE` is a term of a small regular expression syntax, run by a
  backtracking matcher with the leftmost-first semantics of Go's submatches. The
  operating system is a state `World`: a flat file system with hard links, a log of
  the system calls made, and an environment that may make any system call fail.
* `dng.go`. A call of `runDNGConverter` yields its error and the events it performs;
  concurrent calls are interleavings of their events over the shared semaphore.
* `http_photo.go`. The collaborators of `photoHandler` that are declared in other
  files are the fields of a record `Deps`; the handler works on the response writer
  and a log of the calls it makes.
-/

namespace RethinkRAW

/-! ## The fragment of Go's `regexp` used by `newFilenameRE` -/

/-- Single-character matchers of the pattern language. -/
inductive CharClass where
  /-- The pattern `.` without the `s` flag: any character except a line feed. -/
  | anyNotNL
  /-- The pattern `\d`: an ASCII decimal digit. -/
  | digit
  /-- The pattern `\w`: an ASCII letter, an ASCII digit or the underscore. -/
  | word
  /-- A literal character. -/
  | lit (c : Char)
deriving DecidableEq, Repr

/-- The line feed character. -/
def newline : Char := Char.ofNat 10

/-- ASCII word characters, the class `[0-9A-Za-z_]`. -/
def isWordChar (c : Char) : Bool := c.isAlphanum || c == '_'

/-- Whether a character belongs to a class. -/
def CharClass.test : CharClass → Char → Bool
  | .anyNotNL, c => c != newline
  | .digit, c => c.isDigit
  | .word, c => isWordChar c
  | .lit a, c => c == a

/-- Regular expressions: the constructs that occur in `newFilenameRE`. -/
inductive Regex where
  /-- One character of a class. -/
  | cls (c : CharClass)
  /-- The assertion `\A`: at the beginning of the text. -/
  | beginText
  /-- The assertion `\z`: at the end of the text. -/
  | endText
  /-- Concatenation. -/
  | seq (a b : Regex)
  /-- The greedy option `a?`: prefers to match `a`. -/
  | opt (a : Regex)
  /-- The lazy star `c*?` over a character class: prefers fewer repetitions. -/
  | starLazy (c : CharClass)
  /-- The greedy star `c*` over a character class: prefers more repetitions. -/
  | star (c : CharClass)
  /-- The capturing group number `i`. -/
  | group (i : Nat) (a : Regex)
deriving Repr

/-- Capture registers: for each group the start and end offsets of its last match,
as in the `[]int` pairs of Go's matcher. -/
abbrev Caps := Nat → Option (Nat × Nat)

/-- A continuation of the backtracking search: called with the current offset, the
rest of the input and the capture registers; `none` asks for backtracking. -/
abbrev Cont := Nat → List Char → Caps → Option Caps

/-- Backtracking for `c*?`: first try to go on without consuming, and only when that
fails consume one more character of the class. -/
def starLazyRun (c : CharClass) (k : Cont) : Nat → List Char → Caps → Option Caps
  | pos, [], caps => k pos [] caps
  | pos, ch :: t, caps =>
    match k pos (ch :: t) caps with
    | some r => some r
    | none => if c.test ch then starLazyRun c k (pos + 1) t caps else none

/-- Backtracking for `c*`: first consume as many characters of the class as possible,
and give them back one at a time while the continuation fails. -/
def starRun (c : CharClass) (k : Cont) : Nat → List Char → Caps → Option Caps
  | pos, [], caps => k pos [] caps
  | pos, ch :: t, caps =>
    if c.test ch then
      match starRun c k (pos + 1) t caps with
      | some r => some r
      | none => k pos (ch :: t) caps
    else k pos (ch :: t) caps

/-- Leftmost-first (Perl-like) backtracking semantics, which is the semantics of
Go's `regexp` for submatches: alternatives are explored in priority order and the
first complete match wins. -/
def Regex.run : Regex → Cont → Cont
  | .cls c, k, pos, s, caps =>
    match s with
    | [] => none
    | ch :: t => if c.test ch then k (pos + 1) t caps else none
  | .beginText, k, pos, s, caps => if pos = 0 then k pos s caps else none
  | .endText, k, pos, s, caps => if s.isEmpty then k pos s caps else none
  | .seq a b, k, pos, s, caps => a.run (b.run k) pos s caps
  | .opt a, k, pos, s, caps =>
    match a.run k pos s caps with
    | some r => some r
    | none => k pos s caps
  | .starLazy c, k, pos, s, caps => starLazyRun c k pos s caps
  | .star c, k, pos, s, caps => starRun c k pos s caps
  | .group i a, k, pos, s, caps =>
    a.run (fun p s1 c1 => k p s1 (Function.update c1 i (some (pos, p)))) pos s caps

/-- The bounded repetition `x{1,4}`, which Go's `regexp/syntax` simplifies to
`x(x(x(x)?)?)?`. -/
def Regex.rep1to4 (x : Regex) : Regex :=
  .seq x (.opt (.seq x (.opt (.seq x (.opt x)))))

/-- A match attempt starting at offset `start`; group 0 records the whole match. -/
def Regex.matchAt (re : Regex) (start : Nat) (s : List Char) : Option Caps :=
  re.run (fun p _ c => some (Function.update c 0 (some (start, p)))) start s (fun _ => none)

/-- The continuation that ends a match attempt started at `start`. -/
def finalCont (start : Nat) : Cont :=
  fun p _ c => some (Function.update c 0 (some (start, p)))

/-- Unanchored leftmost search: try every start offset from left to right. -/
def Regex.search (re : Regex) : Nat → List Char → Option Caps
  | start, [] => re.matchAt start []
  | start, ch :: t =>
    match re.matchAt start (ch :: t) with
    | some r => some r
    | none => re.search (start + 1) t

/-- The text between two offsets of the input. -/
def slice (s : List Char) (r : Option (Nat × Nat)) : List Char :=
  match r with
  | none => []
  | some (a, b) => (s.drop a).take (b - a)

/-- Model of `(*Regexp).FindStringSubmatch` for an expression with `n` groups: the text
of the leftmost match and of each group, an unmatched group giving the empty string;
`none` stands for the nil slice returned when there is no match. -/
def Regex.FindStringSubmatch (re : Regex) (n : Nat) (s : List Char) :
    Option (List (List Char)) :=
  (re.search 0 s).map fun caps => (List.range (n + 1)).map fun i => slice s (caps i)

/-- The optional numeric suffix of the pattern, that is ` \((\d{1,4})\)`. -/
def suffixRE : Regex :=
  .seq (.cls (.lit ' ')) (.seq (.cls (.lit '('))
    (.seq (.group 2 (Regex.rep1to4 (.cls .digit))) (.cls (.lit ')'))))

/-- The optional extension of the pattern, that is `(\.\w*)`. -/
def extRE : Regex := .group 3 (.seq (.cls (.lit '.')) (.star .word))

/-- The part of the pattern after the stem: `(?: \((\d{1,4})\))?(\.\w*)?\z`. -/
def tailRE : Regex := .seq (.opt suffixRE) (.seq (.opt extRE) .endText)

/-- The pattern `\A(.*?)(?: \((\d{1,4})\))?(\.\w*)?\z` of `newFilenameRE`. -/
def newFilenameRE : Regex :=
  .seq .beginText (.seq (.group 1 (.starLazy .anyNotNL)) tailRE)

/-! ## `strconv` -/

/-- Model of `strconv.Itoa` on non-negative integers: the decimal digits. -/
def Itoa (n : Nat) : List Char := Nat.toDigits 10 n

/-- Model of `strconv.Atoi` on strings of decimal digits, the only strings it is given
here; the result is the number and whether the syntax was valid. An invalid string
gives 0 and an error, as in Go. -/
def Atoi (s : List Char) : Nat × Bool :=
  if s ≠ [] ∧ s.all Char.isDigit then
    (s.foldl (fun acc c => acc * 10 + (c.toNat - 48)) 0, true)
  else (0, false)

/-! ## `NewFile`: the candidate names -/

/-- The disambiguator `i` that `NewFile` reads from the submatches `m`: the number
in the numeric suffix, or 0 when the suffix group is empty. -/
def disambiguator (m : List (List Char)) : Nat :=
  if m.getD 2 [] ≠ [] then (Atoi (m.getD 2 [])).1 else 0

/-- The loop body of `NewFile` after an "already exists" failure: the next name to
try, or `none` when the pattern does not match and the loop is left. -/
def nextName (name : List Char) : Option (List Char) :=
  match newFilenameRE.FindStringSubmatch 3 name with
  | some m =>
    some (m.getD 1 [] ++ " (".toList ++ Itoa (disambiguator m + 1) ++ ")".toList ++ m.getD 3 [])
  | none => none

/-- The disambiguator parsed from a candidate name, a name without a numeric suffix
counting as 0. -/
def nameDisambiguator (name : List Char) : Nat :=
  match newFilenameRE.FindStringSubmatch 3 name with
  | some m => disambiguator m
  | none => 0

/-! ## Errors -/

/-- The value of `runtime.GOOS`, as far as the code distinguishes it. -/
inductive GOOS where
  | windows
  | darwin
  | linux
deriving DecidableEq, Repr

/-- Go error values, as far as the code inspects them. -/
inductive Error where
  /-- A `syscall.Errno`. -/
  | errno (code : Nat)
  /-- A `*fs.PathError`, which unwraps to its cause. -/
  | pathError (op : String) (path : List Char) (err : Error)
  /-- A `*os.LinkError`, which unwraps to its cause. -/
  | linkError (op : String) (old new : List Char) (err : Error)
  /-- An error made by `fmt.Errorf` with the verb `%w`, which unwraps to its argument. -/
  | wrap (msg : String) (err : Error)
  /-- An error value made by `errors.New`, compared by identity. -/
  | sentinel (name : String)
deriving DecidableEq, Repr

/-- The sentinel `fs.ErrExist`. -/
def ErrExist : Error := .sentinel "file already exists"

/-- The sentinel `fs.ErrNotExist`. -/
def ErrNotExist : Error := .sentinel "file does not exist"

/-- The sentinel `zenity.ErrCanceled`. -/
def ErrCanceled : Error := .sentinel "dialog canceled"

/-- The error code the system reports for a path that already exists. -/
def EEXIST : GOOS → Nat
  | .windows => 80
  | _ => 17

/-- The error code the system reports for a path that does not exist. -/
def ENOENT : GOOS → Nat := fun _ => 2

/-- Model of `syscall.Errno.Is` for the two sentinels the code asks about. -/
def errnoIs (g : GOOS) (code : Nat) (target : Error) : Bool :=
  if target = ErrExist then
    match g with
    | .windows => code = 183 || code = 145 || code = 80
    | .darwin => code = 17 || code = 66
    | .linux => code = 17 || code = 39
  else if target = ErrNotExist then
    match g with
    | .windows => code = 2 || code = 53 || code = 3
    | _ => code = 2
  else false

/-- Model of `errors.Is` on a non-nil error: walk the chain of wrapped errors. -/
def errorsIs (g : GOOS) : Error → Error → Bool
  | .errno c, t => Error.errno c = t || errnoIs g c t
  | .pathError op p e, t => Error.pathError op p e = t || errorsIs g e t
  | .linkError op a b e, t => Error.linkError op a b e = t || errorsIs g e t
  | .wrap m e, t => Error.wrap m e = t || errorsIs g e t
  | .sentinel n, t => Error.sentinel n = t

/-- Model of `errors.Is` on a possibly nil error with a non-nil target. -/
def errorsIsOpt (g : GOOS) (err : Option Error) (t : Error) : Bool :=
  match err with
  | none => false
  | some e => errorsIs g e t

/-- Model of `errors.As` with a `*os.LinkError` target: the cause `Err` of the first
link error in the chain. -/
def asLinkError : Error → Option Error
  | .linkError _ _ _ e => some e
  | .pathError _ _ e => asLinkError e
  | .wrap _ e => asLinkError e
  | _ => none

/-- Embedding of `isNotSameDevice`. -/
def isNotSameDevice (g : GOOS) (err : Option Error) : Bool :=
  match err with
  | none => false
  | some e =>
    match asLinkError e with
    | some cause =>
      if g = .windows then cause = Error.errno 0x11 -- ERROR_NOT_SAME_DEVICE
      else cause = Error.errno 0x12 -- EXDEV
    | none => false

/-! ## The file system -/

/-- An open file: the path it was opened with and the file it refers to. -/
structure File where
  path : List Char
  id : Nat
deriving DecidableEq, Repr

/-- The system calls made, in order. -/
inductive Call where
  | openExcl (name : List Char)
  | openRead (name : List Char)
  | create (name : List Char)
  | copy (dst src : File)
  | close (f : File)
  | rename (old new : List Char)
  | remove (name : List Char)
  | stat (name : List Char)
  | link (old new : List Char)
deriving DecidableEq, Repr

/-- A failure injected by the environment: the error, and for a copy the number of
bytes that were transferred before it. -/
structure Fault where
  err : Error
  written : Nat
deriving DecidableEq

/-- The state of the world: a flat file system with hard links, and the environment.
`names` gives the file (device and inode) a path refers to, `data` its content.
`faults` tells which system calls fail for reasons outside the model (permissions,
devices, input and output errors), by the number of the call. -/
structure World where
  goos : GOOS
  names : List Char → Option Nat
  data : Nat → List UInt8
  nextId : Nat
  clock : Nat
  faults : Nat → Option Fault
  log : List Call

/-- Record a call and advance the clock. -/
def World.tick (w : World) (c : Call) : World :=
  { w with clock := w.clock + 1, log := w.log ++ [c] }

/-- Model of `os.OpenFile(name, os.O_RDWR|os.O_CREATE|os.O_EXCL, 0666)`: fails when the
path exists, otherwise creates an empty file. -/
def osOpenFileExcl (name : List Char) (w : World) : Except Error File × World :=
  match w.faults w.clock with
  | some f => (.error f.err, w.tick (.openExcl name))
  | none =>
    match w.names name with
    | some _ => (.error (.pathError "open" name (.errno (EEXIST w.goos))), w.tick (.openExcl name))
    | none =>
      (.ok ⟨name, w.nextId⟩,
        { w.tick (.openExcl name) with
          names := Function.update w.names name (some w.nextId)
          data := Function.update w.data w.nextId []
          nextId := w.nextId + 1 })

/-- Model of `os.Open`. -/
def osOpen (name : List Char) (w : World) : Except Error File × World :=
  match w.faults w.clock with
  | some f => (.error f.err, w.tick (.openRead name))
  | none =>
    match w.names name with
    | some i => (.ok ⟨name, i⟩, w.tick (.openRead name))
    | none => (.error (.pathError "open" name (.errno (ENOENT w.goos))), w.tick (.openRead name))

/-- Model of `os.Create`: truncates the file when the path exists, otherwise creates
an empty file. -/
def osCreate (name : List Char) (w : World) : Except Error File × World :=
  match w.faults w.clock with
  | some f => (.error f.err, w.tick (.create name))
  | none =>
    match w.names name with
    | some i =>
      (.ok ⟨name, i⟩, { w.tick (.create name) with data := Function.update w.data i [] })
    | none =>
      (.ok ⟨name, w.nextId⟩,
        { w.tick (.create name) with
          names := Function.update w.names name (some w.nextId)
          data := Function.update w.data w.nextId []
          nextId := w.nextId + 1 })

/-- Bytes written at the start of a file replace what was there. -/
def overwrite (old new : List UInt8) : List UInt8 := new ++ old.drop new.length

/-- Model of `io.Copy(out, in)` on two files just opened: the content of `in` is
written at the start of `out`; on a failure only some first bytes are. -/
def ioCopy (out inp : File) (w : World) : Option Error × World :=
  match w.faults w.clock with
  | some f =>
    (some f.err,
      { w.tick (.copy out inp) with
        data := Function.update w.data out.id
          (overwrite (w.data out.id) ((w.data inp.id).take f.written)) })
  | none =>
    (none,
      { w.tick (.copy out inp) with
        data := Function.update w.data out.id (overwrite (w.data out.id) (w.data inp.id)) })

/-- Model of `(*os.File).Close`. -/
def fileClose (f : File) (w : World) : Option Error × World :=
  match w.faults w.clock with
  | some flt => (some flt.err, w.tick (.close f))
  | none => (none, w.tick (.close f))

/-- Model of `os.Rename`: when both paths name the same file nothing happens. -/
def osRename (old new : List Char) (w : World) : Option Error × World :=
  match w.faults w.clock with
  | some f => (some f.err, w.tick (.rename old new))
  | none =>
    match w.names old with
    | none => (some (.linkError "rename" old new (.errno (ENOENT w.goos))), w.tick (.rename old new))
    | some i =>
      if w.names new = some i then (none, w.tick (.rename old new))
      else
        (none,
          { w.tick (.rename old new) with
            names := Function.update (Function.update w.names new (some i)) old none })

/-- Model of `os.Remove` on a file. -/
def osRemove (name : List Char) (w : World) : Option Error × World :=
  match w.faults w.clock with
  | some f => (some f.err, w.tick (.remove name))
  | none =>
    match w.names name with
    | none => (some (.pathError "remove" name (.errno (ENOENT w.goos))), w.tick (.remove name))
    | some _ => (none, { w.tick (.remove name) with names := Function.update w.names name none })

/-- Model of `os.Stat`: the file information is the identity of the file. -/
def osStat (name : List Char) (w : World) : Except Error Nat × World :=
  match w.faults w.clock with
  | some f => (.error f.err, w.tick (.stat name))
  | none =>
    match w.names name with
    | some i => (.ok i, w.tick (.stat name))
    | none => (.error (.pathError "stat" name (.errno (ENOENT w.goos))), w.tick (.stat name))

/-- Model of `os.SameFile`; `none` is the nil `FileInfo` of a failed `Stat`. -/
def osSameFile (a b : Option Nat) : Bool :=
  match a, b with
  | some i, some j => i = j
  | _, _ => false

/-- Model of `os.Link`: fails when the new path exists. -/
def osLink (old new : List Char) (w : World) : Option Error × World :=
  match w.faults w.clock with
  | some f => (some f.err, w.tick (.link old new))
  | none =>
    match w.names old with
    | none => (some (.linkError "link" old new (.errno (ENOENT w.goos))), w.tick (.link old new))
    | some i =>
      match w.names new with
      | some _ =>
        (some (.linkError "link" old new (.errno (EEXIST w.goos))), w.tick (.link old new))
      | none => (none, { w.tick (.link old new) with names := Function.update w.names new (some i) })

/-- Well-formed worlds: the files that paths refer to were allocated before `nextId`,
so that a newly created file is different from every existing one. -/
def World.WF (w : World) : Prop := ∀ p i, w.names p = some i → i < w.nextId

/-! ## `pkg/osutil/file.go` -/

/-- Embedding of `NewFile`. The loop is unbounded in the source; `fuel` bounds the
number of iterations and `none` means the bound was reached. -/
def NewFile : Nat → List Char → World → Option ((Option File × Option Error) × World)
  | 0, _, _ => none
  | fuel + 1, name, w =>
    match osOpenFileExcl name w with
    | (.error err, w1) =>
      if errorsIs w1.goos err ErrExist then
        match nextName name with
        | some name1 => NewFile fuel name1 w1
        | none => some ((none, some err), w1)
      else some ((none, some err), w1)
    | (.ok f, w1) => some ((some f, none), w1)

/-- Embedding of `Copy`. The deferred calls run in reverse order: the closing of
`out`, whose error is reported when there was none before, then the closing of `in`. -/
def Copy (src dst : List Char) (w : World) : Option Error × World :=
  match osOpen src w with
  | (.error err, w1) => (some err, w1)
  | (.ok inp, w1) =>
    match osCreate dst w1 with
    | (.error err, w2) => (some err, (fileClose inp w2).2)
    | (.ok out, w2) =>
      match ioCopy out inp w2 with
      | (err, w3) =>
        match fileClose out w3 with
        | (cerr, w4) => (if err = none then cerr else err, (fileClose inp w4).2)

/-- Embedding of `Move`. -/
def Move (src dst : List Char) (w : World) : Option Error × World :=
  match osRename src dst w with
  | (err, w1) =>
    if isNotSameDevice w1.goos err then
      match Copy src dst w1 with
      | (some err, w2) => (some err, w2)
      | (none, w2) =>
        match osRemove src w2 with
        | (err, w3) => if errorsIsOpt w3.goos err ErrNotExist then (none, w3) else (err, w3)
    else (err, w1)

/-- Embedding of `Lnky`. -/
def Lnky (src dst : List Char) (w : World) : Option Error × World :=
  match osStat src w with
  | (.error err, w1) => (some err, w1)
  | (.ok sfi, w1) =>
    match osStat dst w1 with
    | (dfi, w2) =>
      if osSameFile (some sfi) dfi.toOption then (none, w2)
      else
        match osLink src dst w2 with
        | (none, w3) => (none, w3)
        | (some _, w3) => Copy src dst w3

/-! ## `dng.go`

Outside `file.go` a Go string is a Lean `String`. -/

/-- Modelled from the spec: the type `exportSettings` is declared in another file of
the package; these are the fields that `runDNGConverter` and `photoHandler` read
(target format DNG, preview size, lossy compression, embedding of the original). -/
structure exportSettings where
  DNG : Bool
  Preview : String
  Lossy : Bool
  Embed : Bool
deriving DecidableEq, Repr

/-- Model of `strconv.Itoa` on an `int`. -/
def ItoaInt (n : Int) : String :=
  if n < 0 then String.mk ('-' :: Itoa n.natAbs) else String.mk (Itoa n.toNat)

/-- What a call of `runDNGConverter` does to its surroundings, in order. -/
inductive Event where
  /-- The call `os.RemoveAll(output)`. -/
  | removeAll (path : String)
  /-- A permit of `semDNGConverter` was acquired. -/
  | acquire
  /-- The acquisition of a permit failed; no permit is held. -/
  | acquireFailed
  /-- The call `cmd.Output` began: the converter process is started with these
  arguments. -/
  | start (name : String) (args : List String)
  /-- The converter process ended and `cmd.Output` returned. -/
  | finish
  /-- The deferred `semDNGConverter.Release(1)`. -/
  | release
deriving DecidableEq, Repr

/-- The surroundings of one call of `runDNGConverter`: the configuration, the
`path/filepath` functions, and the outcome of each call that can fail. -/
structure DngEnv where
  /-- The variable `config.DngConverter`. -/
  DngConverter : String
  /-- The function `filepath.Dir`. -/
  Dir : String → String
  /-- The function `filepath.Base`. -/
  Base : String → String
  /-- The outcome of `os.RemoveAll`. -/
  removeAll : String → Option Error
  /-- The outcome of `semDNGConverter.Acquire`, once it returns. -/
  acquireErr : Option Error
  /-- The outcome of `cmd.Output` for a command. -/
  output : String → List String → Option Error

/-- The argument list that `runDNGConverter` builds, statement by statement.
A nil `exp` is `none`. -/
def converterArgs (env : DngEnv) (input output : String) (side : Int)
    (exp : Option exportSettings) : List String :=
  let dir := env.Dir output
  let output := env.Base output
  let opts : List String := []
  let opts :=
    match exp with
    | some e =>
      if e.DNG then
        let opts := if e.Preview ≠ "" then opts ++ ["-" ++ e.Preview] else opts
        let opts := if e.Lossy then opts ++ ["-lossy"] else opts
        let opts := if e.Embed then opts ++ ["-e"] else opts
        opts
      else
        let opts := if side > 0 then opts ++ ["-lossy", "-side", ItoaInt side] else opts
        opts ++ ["-p2"]
    | none =>
      let opts := if side > 0 then opts ++ ["-lossy", "-side", ItoaInt side] else opts
      opts ++ ["-p2"]
  opts ++ ["-d", dir, "-o", output, input]

/-- Embedding of `runDNGConverter`: the error it returns and the events of the call. -/
def runDNGConverter (env : DngEnv) (input output : String) (side : Int)
    (exp : Option exportSettings) : Option Error × List Event :=
  match env.removeAll output with
  | some err => (some err, [.removeAll output])
  | none =>
    let opts := converterArgs env input output side exp
    match env.acquireErr with
    | some err => (some err, [.removeAll output, .acquireFailed])
    | none =>
      -- defer semDNGConverter.Release(1)
      match env.output env.DngConverter opts with
      | some err =>
        (some (.wrap "DNG Converter: " err),
          [.removeAll output, .acquire, .start env.DngConverter opts, .finish, .release])
      | none =>
        (none, [.removeAll output, .acquire, .start env.DngConverter opts, .finish, .release])

/-- The options that the specification gives for the converter, before the
destination: for DNG export the preview flag, `-lossy` and `-e` as configured, and
otherwise `-lossy -side n` when a limit was requested, then `-p2`. -/
def specOpts (side : Int) (exp : Option exportSettings) : List String :=
  match exp with
  | some e =>
    if e.DNG then
      (if e.Preview ≠ "" then ["-" ++ e.Preview] else []) ++
        (if e.Lossy then ["-lossy"] else []) ++ (if e.Embed then ["-e"] else [])
    else if side > 0 then ["-lossy", "-side", ItoaInt side, "-p2"] else ["-p2"]
  | none => if side > 0 then ["-lossy", "-side", ItoaInt side, "-p2"] else ["-p2"]

/-! ### Concurrent calls of `runDNGConverter`

Calls that run at the same time are interleaved event by event. The only state they
share is `semDNGConverter`, a weighted semaphore of weight 3: `Acquire(ctx, 1)` cannot
complete while three permits are held, `Release(1)` gives one permit back. -/

/-- The weight of `semDNGConverter`, from `semaphore.NewWeighted(3)`. -/
def semWeight : Nat := 3

/-- One conversion request: the arguments of a call and its surroundings. -/
structure ConversionJob where
  env : DngEnv
  input : String
  output : String
  side : Int
  exp : Option exportSettings

/-- The events of the call for a job. -/
def ConversionJob.events (j : ConversionJob) : List Event :=
  (runDNGConverter j.env j.input j.output j.side j.exp).2

/-- The process-wide state: the permits of `semDNGConverter` in use, and for every
call in progress the events it has still to perform. -/
structure Converter where
  held : Nat
  calls : List (List Event)
deriving DecidableEq, Repr

/-- One call performs its next event. A call whose next event is the acquisition
stays blocked while all permits are in use. -/
def stepCall (held : Nat) : List Event → Nat × List Event
  | [] => (held, [])
  | .acquire :: rest =>
    if held + 1 ≤ semWeight then (held + 1, rest) else (held, .acquire :: rest)
  | .release :: rest => (held - 1, rest)
  | _ :: rest => (held, rest)

/-- The call number `k` performs its next event. -/
def stepAt : Nat → Nat → List (List Event) → Nat × List (List Event)
  | _, held, [] => (held, [])
  | 0, held, t :: ts => ((stepCall held t).1, (stepCall held t).2 :: ts)
  | k + 1, held, t :: ts => ((stepAt k held ts).1, t :: (stepAt k held ts).2)

/-- One step of the system: the scheduler picks the call number `k`. -/
def Converter.step (s : Converter) (k : Nat) : Converter :=
  ⟨(stepAt k s.held s.calls).1, (stepAt k s.held s.calls).2⟩

/-- The state after a schedule, the list of the calls picked in turn. -/
def Converter.run (s : Converter) (schedule : List Nat) : Converter :=
  schedule.foldl Converter.step s

/-- The state in which the calls for the jobs have all just been made. -/
def Converter.initial (jobs : List ConversionJob) : Converter :=
  ⟨0, jobs.map ConversionJob.events⟩

/-- A call whose converter process is running: started, and not yet ended. -/
def processRunning : List Event → Bool
  | .finish :: _ => true
  | _ => false

/-- The number of converter processes that are running. -/
def Converter.running (s : Converter) : Nat := (s.calls.filter processRunning).length

/-! ## `http_photo.go` -/

/-- Modelled from the spec: the type `httpResult` is declared in another file of the
package; the handler sets its fields `Status` and `Error`. The zero status is the
natural success code. -/
structure httpResult where
  Status : Nat := 0
  Error : Option Error := none
deriving DecidableEq, Repr

/-- Modelled from the spec: the type `xmpSettings` is declared in another file of the
package; the edit settings are a file name and editing parameters that the handler
forwards without looking at them. -/
structure xmpSettings where
  Filename : String
  params : List (String × String)
deriving DecidableEq, Repr

/-- The status codes `http.StatusBadRequest`, `http.StatusNoContent` and
`http.StatusInternalServerError`. -/
def StatusBadRequest : Nat := 400

def StatusNoContent : Nat := 204

def StatusInternalServerError : Nat := 500

/-- The form values of a request, `url.Values`: keys with their lists of values. -/
abbrev Form := List (String × List String)

/-- Model of the index expression `_, ok := form[key]`: whether the key is present. -/
def Form.has (form : Form) (key : String) : Bool := form.any fun kv => kv.1 == key

/-- A request, as far as the handler reads it. -/
structure Request where
  /-- The outcome of `r.ParseForm()`. -/
  parseFormErr : Option Error
  /-- The field `r.Form` after parsing. -/
  Form : Form
  /-- The field `r.URL.Path`. -/
  URLPath : String

/-- The response writer: the header map and the body written so far. -/
structure ResponseWriter where
  header : List (String × String)
  body : List UInt8
deriving DecidableEq, Repr

/-- Model of `w.Header().Set(key, value)`: replaces the values of the key. -/
def ResponseWriter.setHeader (w : ResponseWriter) (key value : String) : ResponseWriter :=
  { w with header := (key, value) :: w.header.filter fun kv => kv.1 != key }

/-- Model of `w.Header().Get(key)`. -/
def ResponseWriter.getHeader (w : ResponseWriter) (key : String) : Option String :=
  (w.header.find? fun kv => kv.1 == key).map Prod.snd

/-- Model of `w.Write(out)`, whose error the handler ignores. -/
def ResponseWriter.write (w : ResponseWriter) (out : List UInt8) : ResponseWriter :=
  { w with body := w.body ++ out }

/-- The calls the handler makes to its collaborators, in order. -/
inductive Effect where
  | sendCached (path : String)
  | getMetaHTML (path : String)
  | saveEdit (path : String) (xmp : xmpSettings)
  | selectFileSave (filename : String)
  | exportEdit (path : String) (xmp : xmpSettings) (exp : exportSettings)
  | writeFile (path : String) (data : List UInt8)
  | previewEdit (path : String) (size : Int) (xmp : xmpSettings)
  | loadEdit (path : String)
  | loadWhiteBalance (path : String) (coords : List String)
  | stat (path : String)
  | executeTemplate (name : String) (title base path : String)
deriving DecidableEq, Repr

/-- The collaborators of `photoHandler`, functions of other files and packages, each
with the outcome of its call. -/
structure Deps where
  getPathPrefix : Request → String
  fromURLPath : String → String → String
  toUsrPath : String → String → String
  toURLPath : String → String → String
  Base : String → String
  PercentEncode : String → String
  isLocalhost : Request → Bool
  /-- The call `sendCached(w, r, path)`, which may write the response. -/
  sendCached : Request → String → ResponseWriter → httpResult × ResponseWriter
  /-- The method `Done` of `httpResult`. -/
  Done : httpResult → Bool
  getMetaHTML : String → Except Error (List UInt8)
  /-- The decoding of the form into edit settings by `schema.Decoder.Decode`. -/
  decodeXmp : Form → Except Error xmpSettings
  /-- The decoding of the form into export settings. -/
  decodeExp : Form → Except Error exportSettings
  /-- The decoding of the form into `struct{ Preview int }`. -/
  decodeSize : Form → Except Error Int
  /-- The decoding of the form into `struct{ WB []float64 }`, the numbers kept as text. -/
  decodeCoords : Form → Except Error (List String)
  saveEdit : String → xmpSettings → Option Error
  exportPath : String → exportSettings → String
  /-- The call `zenity.SelectFileSave`: the chosen path and the error. -/
  selectFileSave : Request → String → String × Option Error
  exportEdit : String → xmpSettings → exportSettings → Except Error (List UInt8)
  /-- The call `os.WriteFile(path, data, 0666)`. -/
  writeFile : String → List UInt8 → Option Error
  previewEdit : String → Int → xmpSettings → Except Error (List UInt8)
  loadEdit : String → Except Error xmpSettings
  /-- The call `loadWhiteBalance`, its result kept as text. -/
  loadWhiteBalance : String → List String → Except Error String
  /-- The encoding by `json.Encoder.Encode` of edit settings: the bytes it writes. -/
  encodeXmp : xmpSettings → Except Error (List UInt8)
  /-- The encoding by `json.Encoder.Encode` of a white balance. -/
  encodeWB : String → Except Error (List UInt8)
  /-- The call `os.Stat(path)`. -/
  stat : String → Option Error
  /-- The call `templates.ExecuteTemplate`: the bytes it writes and its error. -/
  executeTemplate : String → String → String → String → List UInt8 × Option Error
  /-- The platform, for `errors.Is`. -/
  goos : GOOS

/-- The state a handler works on: the response and the calls made so far. -/
structure Ctx where
  w : ResponseWriter
  effects : List Effect
deriving DecidableEq, Repr

/-- Record a call. -/
def Ctx.did (c : Ctx) (e : Effect) : Ctx := { c with effects := c.effects ++ [e] }

/-- The `case meta` of `photoHandler`. -/
def metaCase (d : Deps) (r : Request) (path : String) (c : Ctx) : httpResult × Ctx :=
  let c := { c with w := c.w.setHeader "Cache-Control" "max-age=60" }
  let (res, w1) := d.sendCached r path c.w
  let c := { (c.did (.sendCached path)) with w := w1 }
  if d.Done res then (res, c)
  else
    match d.getMetaHTML path with
    | .error err => ({ Error := some err }, c.did (.getMetaHTML path))
    | .ok out =>
      let c := c.did (.getMetaHTML path)
      let c := { c with w := c.w.setHeader "Content-Type" "text/html; charset=utf-8" }
      ({}, { c with w := c.w.write out })

/-- The `case save` of `photoHandler`. -/
def saveCase (d : Deps) (r : Request) (path : String) (c : Ctx) : httpResult × Ctx :=
  match d.decodeXmp r.Form with
  | .error err => ({ Error := some err }, c)
  | .ok xmp =>
    let xmp := { xmp with Filename := d.Base path }
    match d.saveEdit path xmp with
    | some err => ({ Error := some err }, c.did (.saveEdit path xmp))
    | none => ({ Status := StatusNoContent }, c.did (.saveEdit path xmp))

/-- The end of the `case export`, from the call of `exportEdit`. -/
def exportWrite (d : Deps) (r : Request) (path exppath : String) (xmp : xmpSettings)
    (exp : exportSettings) (c : Ctx) : httpResult × Ctx :=
  match d.exportEdit path xmp exp with
  | .error err => ({ Error := some err }, c.did (.exportEdit path xmp exp))
  | .ok out =>
    let c := c.did (.exportEdit path xmp exp)
    if d.isLocalhost r then
      match d.writeFile exppath out with
      | some err => ({ Error := some err }, c.did (.writeFile exppath out))
      | none => ({ Status := StatusNoContent }, c.did (.writeFile exppath out))
    else
      let name := d.Base exppath
      let disposition := "attachment; filename*=UTF-8''" ++ d.PercentEncode name
      let c := { c with w := c.w.setHeader "Content-Disposition" disposition }
      let c :=
        if exp.DNG then { c with w := c.w.setHeader "Content-Type" "image/x-adobe-dng" }
        else { c with w := c.w.setHeader "Content-Type" "image/jpeg" }
      ({}, { c with w := c.w.write out })

/-- The `case export` of `photoHandler`. -/
def exportCase (d : Deps) (r : Request) (path : String) (c : Ctx) : httpResult × Ctx :=
  match d.decodeXmp r.Form with
  | .error err => ({ Error := some err }, c)
  | .ok xmp =>
    match d.decodeExp r.Form with
    | .error err => ({ Error := some err }, c)
    | .ok exp =>
      let xmp := { xmp with Filename := d.Base path }
      let exppath := d.exportPath path exp
      if d.isLocalhost r then
        let (res, err) := d.selectFileSave r exppath
        let c := c.did (.selectFileSave exppath)
        if res ≠ "" then exportWrite d r path res xmp exp c
        else if errorsIsOpt d.goos err ErrCanceled then ({ Status := StatusNoContent }, c)
        else if err = none then ({ Status := StatusInternalServerError }, c)
        else ({ Error := err }, c)
      else exportWrite d r path exppath xmp exp c

/-- The `case preview` of `photoHandler`. -/
def previewCase (d : Deps) (r : Request) (path : String) (c : Ctx) : httpResult × Ctx :=
  match d.decodeXmp r.Form with
  | .error err => ({ Error := some err }, c)
  | .ok xmp =>
    match d.decodeSize r.Form with
    | .error err => ({ Error := some err }, c)
    | .ok size =>
      match d.previewEdit path size xmp with
      | .error err => ({ Error := some err }, c.did (.previewEdit path size xmp))
      | .ok out =>
        let c := c.did (.previewEdit path size xmp)
        let c := { c with w := c.w.setHeader "Content-Type" "image/jpeg" }
        ({}, { c with w := c.w.write out })

/-- The `case settings` of `photoHandler`. -/
def settingsCase (d : Deps) (_r : Request) (path : String) (c : Ctx) : httpResult × Ctx :=
  match d.loadEdit path with
  | .error err => ({ Error := some err }, c.did (.loadEdit path))
  | .ok xmp =>
    let c := c.did (.loadEdit path)
    let c := { c with w := c.w.setHeader "Content-Type" "application/json" }
    match d.encodeXmp xmp with
    | .error err => ({ Error := some err }, c)
    | .ok out => ({}, { c with w := c.w.write out })

/-- The `case whiteBalance` of `photoHandler`. -/
def whiteBalanceCase (d : Deps) (r : Request) (path : String) (c : Ctx) : httpResult × Ctx :=
  match d.decodeCoords r.Form with
  | .error err => ({ Error := some err }, c)
  | .ok coords =>
    match d.loadWhiteBalance path coords with
    | .error err => ({ Error := some err }, c.did (.loadWhiteBalance path coords))
    | .ok wb =>
      let c := c.did (.loadWhiteBalance path coords)
      let c := { c with w := c.w.setHeader "Content-Type" "application/json" }
      match d.encodeWB wb with
      | .error err => ({ Error := some err }, c)
      | .ok out => ({}, { c with w := c.w.write out })

/-- The `default` case of `photoHandler`. -/
def defaultCase (d : Deps) (_r : Request) (path pfx : String) (c : Ctx) :
    httpResult × Ctx :=
  match d.stat path with
  | some err => ({ Error := some err }, c.did (.stat path))
  | none =>
    let c := c.did (.stat path)
    let c := { c with w := c.w.setHeader "Cache-Control" "max-age=300" }
    let c := { c with w := c.w.setHeader "Content-Type" "text/html; charset=utf-8" }
    let title := d.toUsrPath path pfx
    let name := d.Base path
    let url := d.toURLPath path pfx
    let (out, err) := d.executeTemplate "photo.gohtml" title name url
    let c := c.did (.executeTemplate "photo.gohtml" title name url)
    ({ Error := err }, { c with w := c.w.write out })

/-- Embedding of `photoHandler`. -/
def photoHandler (d : Deps) (r : Request) (c : Ctx) : httpResult × Ctx :=
  match r.parseFormErr with
  | some err => ({ Status := StatusBadRequest, Error := some err }, c)
  | none =>
    let pfx := d.getPathPrefix r
    let path := d.fromURLPath r.URLPath pfx
    let metaFlag := r.Form.has "meta"
    let saveFlag := r.Form.has "save"
    let exportFlag := r.Form.has "export"
    let previewFlag := r.Form.has "preview"
    let settingsFlag := r.Form.has "settings"
    let whiteBalance := r.Form.has "wb"
    if metaFlag then metaCase d r path c
    else if saveFlag then saveCase d r path c
    else if exportFlag then exportCase d r path c
    else if previewFlag then previewCase d r path c
    else if settingsFlag then settingsCase d r path c
    else if whiteBalance then whiteBalanceCase d r path c
    else defaultCase d r path pfx c

/-! ## Concrete worlds for the examples -/

/-- A Linux file system with one file `a.txt` holding three bytes, and no failure
injected. -/
def worldA : World where
  goos := .linux
  names := fun p => if p = "a.txt".toList then some 0 else none
  data := fun i => if i = 0 then [1, 2, 3] else []
  nextId := 1
  clock := 0
  faults := fun _ => none
  log := []

/-- The request modes of the specification. -/
inductive Mode where
  | Meta
  | Save
  | Export
  | Preview
  | Settings
  | WhiteBalance
  | Default
deriving DecidableEq, Repr

/-- The flag keys of the specification with their modes, in the order
meta, save, export, preview, settings, wb. -/
def modeFlags : List (String × Mode) :=
  [("meta", .Meta), ("save", .Save), ("export", .Export), ("preview", .Preview),
    ("settings", .Settings), ("wb", .WhiteBalance)]

/-- The mode the specification selects: that of the first flag key, in the order of
`modeFlags`, which is present in the form, and `Default` when none is. -/
def selectMode (form : Form) : Mode :=
  match modeFlags.find? fun km => form.has km.1 with
  | some km => km.2
  | none => .Default

/-- The action of a mode: the corresponding case of `photoHandler`. -/
def runMode (d : Deps) (r : Request) (path pfx : String) (c : Ctx) : Mode → httpResult × Ctx
  | .Meta => metaCase d r path c
  | .Save => saveCase d r path c
  | .Export => exportCase d r path c
  | .Preview => previewCase d r path c
  | .Settings => settingsCase d r path c
  | .WhiteBalance => whiteBalanceCase d r path c
  | .Default => defaultCase d r path pfx c

/-- An environment for `runDNGConverter` in which every call succeeds. -/
def dngEnv : DngEnv where
  DngConverter := "dngconverter"
  Dir := fun _ => "/out"
  Base := fun _ => "photo.dng"
  removeAll := fun _ => none
  acquireErr := none
  output := fun _ _ => none

/-- Ten jobs in surroundings where every call succeeds. -/
def tenJobs : List ConversionJob :=
  List.replicate 10 ⟨dngEnv, "in.raw", "/out/photo.dng", 0, none⟩

/-- Collaborators for a local request: the photo exists, the save dialog returns
`dialog`, the export returns `export`, and everything else succeeds. -/
def depsLocal (dialog : String × Option Error) (exported : Except Error (List UInt8)) :
    Deps where
  getPathPrefix := fun _ => ""
  fromURLPath := fun p _ => p
  toUsrPath := fun p _ => p
  toURLPath := fun p _ => p
  Base := fun p => p
  PercentEncode := fun p => p
  isLocalhost := fun _ => true
  sendCached := fun _ _ w => ({}, w)
  Done := fun _ => false
  getMetaHTML := fun _ => .ok []
  decodeXmp := fun _ => .ok ⟨"", []⟩
  decodeExp := fun _ => .ok ⟨false, "", false, false⟩
  decodeSize := fun _ => .ok 0
  decodeCoords := fun _ => .ok []
  saveEdit := fun _ _ => none
  exportPath := fun p _ => p ++ ".jpg"
  selectFileSave := fun _ _ => dialog
  exportEdit := fun _ _ _ => exported
  writeFile := fun _ _ => none
  previewEdit := fun _ _ _ => .ok []
  loadEdit := fun _ => .ok ⟨"", []⟩
  loadWhiteBalance := fun _ _ => .ok ""
  encodeXmp := fun _ => .ok []
  encodeWB := fun _ => .ok []
  stat := fun p => if p = "/photo.raw" then none else some (.errno (ENOENT .linux))
  executeTemplate := fun _ _ _ _ => ([60, 62], none)
  goos := .linux

/-- A request for a path with the given form. -/
def requestOf (path : String) (form : Form) : Request where
  parseFormErr := none
  Form := form
  URLPath := path

/-- An empty response and no call made. -/
def ctx0 : Ctx := ⟨⟨[], []⟩, []⟩

/-- The path that `photoHandler` resolves from the request. -/
def resolvedPath (d : Deps) (r : Request) : String :=
  d.fromURLPath r.URLPath (d.getPathPrefix r)

/-- The candidate export path that `photoHandler` passes to the save dialog. -/
def candidatePath (d : Deps) (r : Request) (exp : exportSettings) : String :=
  d.exportPath (resolvedPath d r) exp

/-- The edit settings after `xmp.Filename = filepath.Base(path)`. -/
def stamped (d : Deps) (r : Request) (xmp : xmpSettings) : xmpSettings :=
  { xmp with Filename := d.Base (resolvedPath d r) }

/-- The world `worldA` on a boundary between devices: the first system call, the
rename, fails with the not-same-device error. -/
def worldXdev : World :=
  { worldA with
    faults := fun n =>
      if n = 0 then
        some ⟨.linkError "rename" "a.txt".toList "b.txt".toList (.errno 0x12), 0⟩
      else none }

/-- The world `worldXdev` in which, in addition, the seventh system call, the removal
of the source after the copy, is refused (permission denied, `EACCES`). -/
def worldXdevDenied : World :=
  { worldA with
    faults := fun n =>
      if n = 0 then
        some ⟨.linkError "rename" "a.txt".toList "b.txt".toList (.errno 0x12), 0⟩
      else if n = 6 then some ⟨.pathError "remove" "a.txt".toList (.errno 13), 0⟩
      else none }

/-- A world in which `/m1/a` and `/m2/a` are the same file, seen through two mounts of
one file system, between which a rename fails with the not-same-device error. -/
def worldTwoMounts : World where
  goos := .linux
  names := fun p => if p = "/m1/a".toList ∨ p = "/m2/a".toList then some 0 else none
  data := fun i => if i = 0 then [1, 2, 3] else []
  nextId := 1
  clock := 0
  faults := fun n =>
    if n = 0 then some ⟨.linkError "rename" "/m1/a".toList "/m2/a".toList (.errno 0x12), 0⟩
    else none
  log := []

/-- The world `worldA` in which hard links are not possible: the third system call,
the link, fails (operation not permitted, `EPERM`). -/
def worldNoLink : World :=
  { worldA with
    faults := fun n =>
      if n = 2 then some ⟨.linkError "link" "a.txt".toList "b.txt".toList (.errno 1), 0⟩
      else none }

/-! ## Definitions used by the proofs -/

/-- The nested options of a bounded repetition: `optN 1 x` is `x?` and
`optN (n + 1) x` is `(x (optN n x))?`. -/
def Regex.optN : Nat → Regex → Regex
  | 0, x => .opt x
  | 1, x => .opt x
  | n + 2, x => .opt (.seq x (Regex.optN (n + 1) x))

/-- Whether the text is an extension `\.\w*`. -/
def extOK : List Char → Bool
  | [] => false
  | ch :: t => ch == '.' && t.all isWordChar

/-- The numeric suffix at the head of a text: its digits and what follows it. -/
def parseSuffix : List Char → Option (List Char × List Char)
  | a :: b :: ch :: t =>
    if a = ' ' ∧ b = '(' ∧ ch.isDigit = true then
      match t.drop (min 3 (t.takeWhile Char.isDigit).length) with
      | e :: rest =>
        if e = ')' then some (ch :: t.take (min 3 (t.takeWhile Char.isDigit).length), rest)
        else none
      | [] => none
    else none
  | _ => none

/-- The continuation after the optional suffix: `(\.\w*)?\z`. -/
def extCont (start : Nat) : Cont := (Regex.seq (.opt extRE) .endText).run (finalCont start)

/-- The text of a numeric suffix with digits `ds`: a blank, the digits in parentheses. -/
def suffixText (ds : List Char) : List Char := ' ' :: '(' :: (ds ++ [')'])

/-- One to four decimal digits. -/
def validDigits (ds : List Char) : Prop :=
  (∀ c ∈ ds, c.isDigit = true) ∧ 1 ≤ ds.length ∧ ds.length ≤ 4

instance (ds : List Char) : Decidable (validDigits ds) := by
  unfold validDigits; infer_instance

/-- An extension as the pattern sees it: empty, or a dot followed by word characters. -/
def validExt (ext : List Char) : Prop := ext = [] ∨ extOK ext = true

instance (ext : List Char) : Decidable (validExt ext) := by
  unfold validExt; infer_instance

/-- The text after the stem, split into the digits of its numeric suffix (empty when
there is none) and its extension; `none` when it is not of that shape. -/
def parseTail (u : List Char) : Option (List Char × List Char) :=
  match parseSuffix u with
  | some (ds, rest) => if extOK rest = true ∨ rest = [] then some (ds, rest) else none
  | none => if extOK u = true ∨ u = [] then some ([], u) else none

/-- The capture registers after a successful match of the tail at offset `p`. -/
def tailCaps (start p : Nat) (u : List Char) (c : Caps) (ds ext : List Char) : Caps :=
  Function.update
    (if ext = [] then (if ds = [] then c else Function.update c 2 (some (p + 2, p + 2 + ds.length)))
     else Function.update
        (if ds = [] then c else Function.update c 2 (some (p + 2, p + 2 + ds.length)))
        3 (some (p + u.length - ext.length, p + u.length)))
    0 (some (start, p + u.length))

/-- The continuation after the stem. -/
def tailCont (start : Nat) : Cont := tailRE.run (finalCont start)

/-- The value that `Atoi` computes from a digit string. -/
def digitsValue (s : List Char) : Nat := s.foldl (fun acc c => acc * 10 + (c.toNat - 48)) 0

/-- A stem that does not itself end in a numeric suffix. -/
def noSuffix (stem : List Char) : Prop :=
  ∀ t ds, validDigits ds → stem ≠ t ++ suffixText ds

/-- The permits a call in progress holds, read from its next event: one from the
acquisition to the release. -/
def permitsHeld : List Event → Nat
  | .start _ _ :: _ => 1
  | .finish :: _ => 1
  | .release :: _ => 1
  | _ => 0

/-- The remaining events of a call of `runDNGConverter` at any point of its run. -/
def validRest : List Event → Bool
  | [] => true
  | [.removeAll _] => true
  | [.removeAll _, .acquireFailed] => true
  | [.acquireFailed] => true
  | [.removeAll _, .acquire, .start _ _, .finish, .release] => true
  | [.acquire, .start _ _, .finish, .release] => true
  | [.start _ _, .finish, .release] => true
  | [.finish, .release] => true
  | [.release] => true
  | _ => false

/-- The invariant of the system: every call is at a point of its run, the permits in
use are those the calls hold, and they are at most the weight of the semaphore. -/
def Converter.Inv (s : Converter) : Prop :=
  (∀ t ∈ s.calls, validRest t = true) ∧ s.held = (s.calls.map permitsHeld).sum ∧
    s.held ≤ semWeight

/-! ## Lemmas on the backtracking matcher -/

theorem rep1to4_eq (x : Regex) : Regex.rep1to4 x = .seq x (Regex.optN 3 x) := rfl

theorem starLazyRun_of_cont {c : CharClass} {k : Cont} {pos : Nat} {s : List Char}
    {caps r : Caps} (h : k pos s caps = some r) : starLazyRun c k pos s caps = some r := by
  cases s with
  | nil => simpa [starLazyRun] using h
  | cons ch t => simp [starLazyRun, h]

theorem starLazyRun_step {c : CharClass} {k : Cont} {pos : Nat} {ch : Char} {t : List Char}
    {caps : Caps} (h : k pos (ch :: t) caps = none) (hc : c.test ch = true) :
    starLazyRun c k pos (ch :: t) caps = starLazyRun c k (pos + 1) t caps := by
  simp [starLazyRun, h, hc]

/-- The lazy star skips a prefix of class characters at whose every offset the
continuation fails. -/
theorem starLazyRun_skip (c : CharClass) (k : Cont) (caps : Caps) (t : List Char) :
    ∀ (pre : List Char) (pos : Nat), (∀ ch ∈ pre, c.test ch = true) →
      (∀ i, i < pre.length → k (pos + i) (pre.drop i ++ t) caps = none) →
      starLazyRun c k pos (pre ++ t) caps = starLazyRun c k (pos + pre.length) t caps := by
  intro pre
  induction pre with
  | nil => intro pos _ _; simp
  | cons ch pre ih =>
    intro pos hcl hfail
    have h0 : k pos (ch :: (pre ++ t)) caps = none := by simpa using hfail 0 (by simp)
    have hch : c.test ch = true := hcl ch (by simp)
    rw [List.cons_append, starLazyRun_step h0 hch, ih (pos + 1)]
    · simp only [List.length_cons]; congr 1; omega
    · intro x hx; exact hcl x (by simp [hx])
    · intro i hi
      have := hfail (i + 1) (by simpa using hi)
      simpa [Nat.add_assoc, Nat.add_comm 1 i] using this

/-- A successful lazy star stopped at the first offset where the continuation succeeds. -/
theorem starLazyRun_some (c : CharClass) (k : Cont) (caps r : Caps) :
    ∀ (s : List Char) (pos : Nat), starLazyRun c k pos s caps = some r →
      ∃ pre t, s = pre ++ t ∧ (∀ ch ∈ pre, c.test ch = true) ∧
        (∀ i, i < pre.length → k (pos + i) (pre.drop i ++ t) caps = none) ∧
        k (pos + pre.length) t caps = some r := by
  intro s
  induction s with
  | nil =>
    intro pos h
    exact ⟨[], [], rfl, by simp, by simp, by simpa [starLazyRun] using h⟩
  | cons ch t ih =>
    intro pos h
    cases hk : k pos (ch :: t) caps with
    | some r1 =>
      refine ⟨[], ch :: t, rfl, by simp, by simp, ?_⟩
      simp only [starLazyRun, hk] at h
      simpa [hk] using h
    | none =>
      simp only [starLazyRun, hk] at h
      by_cases hc : c.test ch = true
      · simp only [hc, if_true] at h
        obtain ⟨pre, t1, hs, hcl, hfail, hok⟩ := ih (pos + 1) h
        refine ⟨ch :: pre, t1, by simp [hs], ?_, ?_, ?_⟩
        · intro x hx
          rcases List.mem_cons.mp hx with rfl | hx
          · exact hc
          · exact hcl x hx
        · intro i hi
          cases i with
          | zero => simpa [hs] using hk
          | succ j =>
            have := hfail j (by simpa using hi)
            simpa [Nat.add_assoc, Nat.add_comm 1 j] using this
        · simpa [Nat.add_assoc, Nat.add_comm 1] using hok
      · simp [hc] at h

/-- The greedy star followed by a continuation that fails on every non-empty input
succeeds exactly when the whole rest of the input is in the class. -/
theorem starRun_end (c : CharClass) (k : Cont) (caps : Caps)
    (hk : ∀ p ch t cs, k p (ch :: t) cs = none) :
    ∀ (s : List Char) (pos : Nat), starRun c k pos s caps =
      if s.all c.test then k (pos + s.length) [] caps else none := by
  intro s
  induction s with
  | nil => intro pos; simp [starRun]
  | cons ch t ih =>
    intro pos
    by_cases hc : c.test ch = true
    · simp only [starRun, hc, if_true, ih, hk, List.all_cons, Bool.true_and, List.length_cons]
      by_cases ht : t.all c.test = true
      · simp only [ht, if_true]
        have : pos + 1 + t.length = pos + (t.length + 1) := by omega
        rw [this]
        cases k (pos + (t.length + 1)) [] caps <;> rfl
      · simp [ht]
    · simp [starRun, hc, hk]

/-- The nested options over a class, followed by a continuation that fails on every
input starting with a character of the class, consume the longest run of class
characters, at most `n`. -/
theorem optN_run (c : CharClass) (k : Cont)
    (hk : ∀ p ch t cs, c.test ch = true → k p (ch :: t) cs = none) :
    ∀ (n : Nat) (s : List Char) (pos : Nat) (caps : Caps),
      (Regex.optN (n + 1) (.cls c)).run k pos s caps =
        k (pos + min (n + 1) (s.takeWhile c.test).length)
          (s.drop (min (n + 1) (s.takeWhile c.test).length)) caps := by
  intro n
  induction n with
  | zero =>
    intro s pos caps
    cases s with
    | nil => simp [Regex.optN, Regex.run]
    | cons ch t =>
      by_cases hc : c.test ch = true
      · simp only [Regex.optN, Regex.run, hc, if_true, List.takeWhile_cons, List.length_cons]
        have hm : min (0 + 1) ((List.takeWhile c.test t).length + 1) = 1 := by omega
        rw [hm]
        cases h1 : k (pos + 1) t caps with
        | some r => simp [h1]
        | none => simp [hk pos ch t caps hc, h1]
      · simp [Regex.optN, Regex.run, hc]
  | succ n ih =>
    intro s pos caps
    cases s with
    | nil => simp [Regex.optN, Regex.run]
    | cons ch t =>
      by_cases hc : c.test ch = true
      · simp only [Regex.optN, Regex.run, hc, if_true, List.takeWhile_cons, List.length_cons]
        have ih1 := ih t (pos + 1) caps
        simp only [Regex.optN] at ih1
        rw [ih1]
        have hm : min (n + 1 + 1) ((List.takeWhile c.test t).length + 1)
            = min (n + 1) (List.takeWhile c.test t).length + 1 := by omega
        rw [hm]
        have hp : pos + 1 + min (n + 1) (List.takeWhile c.test t).length
            = pos + (min (n + 1) (List.takeWhile c.test t).length + 1) := by omega
        rw [hp, List.drop_succ_cons]
        cases h1 : k (pos + (min (n + 1) (List.takeWhile c.test t).length + 1))
            (List.drop (min (n + 1) (List.takeWhile c.test t).length) t) caps with
        | some r => rfl
        | none => simp [hk pos ch t caps hc]
      · simp [Regex.optN, Regex.run, hc]

/-! ### The tail of `newFilenameRE` -/

theorem extCont_eq (start p : Nat) (u : List Char) (c : Caps) :
    extCont start p u c =
      if extOK u then
        some (Function.update (Function.update c 3 (some (p, p + u.length))) 0
          (some (start, p + u.length)))
      else if u.isEmpty then some (Function.update c 0 (some (start, p)))
      else none := by
  cases u with
  | nil => simp [extCont, extRE, Regex.run, extOK, finalCont]
  | cons ch t =>
    by_cases hc : ch = '.'
    · subst hc
      have key := starRun_end CharClass.word
        (fun p1 s1 c1 => Regex.endText.run (finalCont start) p1 s1
          (Function.update c1 3 (some (p, p1)))) c
        (by intro q x v cs; simp [Regex.run]) t (p + 1)
      have hunf : extCont start p ('.' :: t) c =
          (match starRun CharClass.word
            (fun p1 s1 c1 => Regex.endText.run (finalCont start) p1 s1
              (Function.update c1 3 (some (p, p1)))) (p + 1) t c with
          | some r => some r
          | none => Regex.endText.run (finalCont start) p ('.' :: t) c) := rfl
      rw [hunf, key]
      have hfun : CharClass.word.test = isWordChar := by funext x; rfl
      rw [hfun]
      by_cases ht : t.all isWordChar = true
      · simp [ht, extOK, Regex.run, finalCont, Nat.add_assoc, Nat.add_comm 1]
      · simp [ht, extOK, Regex.run]
    · simp [extCont, extRE, Regex.run, CharClass.test, extOK, hc]

theorem suffixRE_run (k : Cont) (p : Nat) (u : List Char) (c : Caps) :
    suffixRE.run k p u c =
      match parseSuffix u with
      | some (ds, rest) =>
        k (p + 3 + ds.length) rest (Function.update c 2 (some (p + 2, p + 2 + ds.length)))
      | none => none := by
  match u with
  | [] => simp [suffixRE, Regex.run, parseSuffix]
  | [a] => by_cases ha : a = ' ' <;> simp [suffixRE, Regex.run, parseSuffix, CharClass.test, ha]
  | [a, b] =>
    by_cases ha : a = ' ' <;> by_cases hb : b = '(' <;>
      simp [suffixRE, Regex.run, parseSuffix, CharClass.test, ha, hb, rep1to4_eq]
  | a :: b :: ch :: t =>
    by_cases ha : a = ' '
    · by_cases hb : b = '('
      · by_cases hd : ch.isDigit = true
        · subst ha; subst hb
          have key := optN_run CharClass.digit
            (fun p1 s1 c1 => (Regex.cls (.lit ')')).run k p1 s1
              (Function.update c1 2 (some (p + 1 + 1, p1))))
            (by
              intro q x v cs hx
              have hne : x ≠ ')' := by
                rintro rfl
                revert hx; decide
              simp [Regex.run, CharClass.test, hne]) 2 t (p + 1 + 1 + 1) c
          have hunf : suffixRE.run k p (' ' :: '(' :: ch :: t) c =
              if CharClass.digit.test ch then
                (Regex.optN (2 + 1) (.cls .digit)).run
                  (fun p1 s1 c1 => (Regex.cls (.lit ')')).run k p1 s1
                    (Function.update c1 2 (some (p + 1 + 1, p1)))) (p + 1 + 1 + 1) t c
              else none := rfl
          have hfun : CharClass.digit.test = Char.isDigit := by funext x; rfl
          rw [hunf, key, hfun]
          simp only [hd, if_true, parseSuffix, and_self, Nat.reduceAdd]
          cases hdrop : List.drop (min 3 (List.takeWhile Char.isDigit t).length) t with
          | nil => simp [Regex.run]
          | cons e rest =>
            by_cases he : e = ')'
            · subst he
              have hle : min 3 (List.takeWhile Char.isDigit t).length ≤ t.length := by
                have := (List.takeWhile_prefix Char.isDigit (l := t)).length_le
                omega
              simp only [Regex.run, CharClass.test, beq_self_eq_true, if_true, List.length_cons,
                List.length_take]
              have e1 : p + 1 + 1 + 1 + min 3 (List.takeWhile Char.isDigit t).length + 1
                  = p + 3 + (min (min 3 (List.takeWhile Char.isDigit t).length) t.length + 1) := by
                omega
              have e2 : p + 1 + 1 + 1 + min 3 (List.takeWhile Char.isDigit t).length
                  = p + 2 + (min (min 3 (List.takeWhile Char.isDigit t).length) t.length + 1) := by
                omega
              rw [e1, e2]
            · simp [Regex.run, CharClass.test, he]
        · simp [suffixRE, Regex.run, CharClass.test, ha, hb, hd, rep1to4_eq, parseSuffix]
      · simp [suffixRE, Regex.run, CharClass.test, ha, hb, parseSuffix]
    · simp [suffixRE, Regex.run, CharClass.test, ha, parseSuffix]

theorem take_eq_take_takeWhile (q : Char → Bool) (l : List Char) (n : Nat)
    (h : n ≤ (l.takeWhile q).length) : l.take n = (l.takeWhile q).take n := by
  calc l.take n = (l.takeWhile q ++ l.dropWhile q).take n := by
        rw [List.takeWhile_append_dropWhile]
    _ = (l.takeWhile q).take n := List.take_append_of_le_length h

theorem parseSuffix_sound {u ds rest : List Char} (h : parseSuffix u = some (ds, rest)) :
    u = suffixText ds ++ rest ∧ validDigits ds := by
  match u, h with
  | a :: b :: ch :: t, h =>
    simp only [parseSuffix] at h
    split at h
    · rename_i hcond
      obtain ⟨ha, hb, hd⟩ := hcond
      subst ha; subst hb
      split at h
      · rename_i e rest1 hdrop
        split at h
        · rename_i he
          subst he
          simp only [Option.some.injEq, Prod.mk.injEq] at h
          obtain ⟨h1, h2⟩ := h
          subst h1; subst h2
          refine ⟨?_, ?_, ?_, ?_⟩
          · have := List.take_append_drop (min 3 (List.takeWhile Char.isDigit t).length) t
            rw [hdrop] at this
            simp [suffixText, this]
          · intro c hc
            rcases List.mem_cons.mp hc with rfl | hc
            · exact hd
            · rw [take_eq_take_takeWhile Char.isDigit t _ (Nat.min_le_right _ _)] at hc
              exact List.mem_takeWhile_imp (List.mem_of_mem_take hc)
          · simp
          · simp only [List.length_cons, List.length_take]
            omega
        · simp at h
      · simp at h
    · simp at h
  | [], h => simp [parseSuffix] at h
  | [_], h => simp [parseSuffix] at h
  | [_, _], h => simp [parseSuffix] at h

theorem parseSuffix_complete {ds : List Char} (hds : validDigits ds) (rest : List Char) :
    parseSuffix (suffixText ds ++ rest) = some (ds, rest) := by
  obtain ⟨hd, h1, h4⟩ := hds
  match ds, hd, h1, h4 with
  | ch :: t, hd, _, h4 =>
    have hch : ch.isDigit = true := hd ch (by simp)
    have ht : ∀ c ∈ t, c.isDigit = true := fun c hc => hd c (by simp [hc])
    have hlen : t.length ≤ 3 := by simpa using h4
    have htw : List.takeWhile Char.isDigit (t ++ ')' :: rest) = t := by
      rw [List.takeWhile_append_of_pos ht]
      have : Char.isDigit ')' = false := by decide
      simp [List.takeWhile_cons, this]
    have hmin : min 3 t.length = t.length := by omega
    have e : suffixText (ch :: t) ++ rest = ' ' :: '(' :: ch :: (t ++ ')' :: rest) := by
      simp [suffixText]
    rw [e]
    simp only [parseSuffix, hch, and_self, if_true, htw, hmin, List.drop_left, List.take_left]

theorem tailCont_eq (start p : Nat) (u : List Char) (c : Caps) :
    tailCont start p u c =
      match parseTail u with
      | some (ds, ext) => some (tailCaps start p u c ds ext)
      | none => none := by
  have hunf : tailCont start p u c =
      (match suffixRE.run (extCont start) p u c with
      | some r => some r
      | none => extCont start p u c) := rfl
  rw [hunf, suffixRE_run]
  cases hps : parseSuffix u with
  | none =>
    simp only [parseTail, hps, extCont_eq]
    by_cases he : extOK u = true
    · have hne : u ≠ [] := by rintro rfl; simp [extOK] at he
      simp [he, tailCaps, hne]
    · by_cases hu : u = []
      · subst hu; simp [extOK, tailCaps]
      · simp [he, hu]
  | some pr =>
    obtain ⟨ds, rest⟩ := pr
    obtain ⟨hu, hds⟩ := parseSuffix_sound hps
    have hdsne : ds ≠ [] := by
      rintro rfl
      have := hds.2.1
      simp at this
    have hfall : extCont start p u c = none := by
      rw [extCont_eq, hu]
      simp [suffixText, extOK]
    simp only [parseTail, hps, extCont_eq]
    have hlen : u.length = 3 + ds.length + rest.length := by
      rw [hu]; simp [suffixText]; omega
    by_cases he : extOK rest = true
    · have hne : rest ≠ [] := by rintro rfl; simp [extOK] at he
      simp only [he, if_true, true_or, tailCaps, hne, hdsne, if_false]
      have e1 : p + u.length = p + 3 + ds.length + rest.length := by omega
      have e2 : p + u.length - rest.length = p + 3 + ds.length := by omega
      rw [e2, e1]
    · by_cases hr : rest = []
      · subst hr
        simp only [extOK, Bool.false_eq_true, if_false, List.isEmpty_nil, if_true, or_true,
          tailCaps, hdsne]
        have e1 : p + u.length = p + 3 + ds.length := by simp at hlen; omega
        rw [e1]
      · rw [extCont_eq] at hfall
        simp only [he, hr, false_or, if_false]
        simpa [hr] using hfall

/-- A match attempt of `newFilenameRE` at offset 0 is a lazy scan for the first split
point at which the tail matches. -/
theorem newFilenameRE_matchAt_zero (s : List Char) :
    newFilenameRE.matchAt 0 s =
      starLazyRun .anyNotNL
        (fun p s1 c1 => tailCont 0 p s1 (Function.update c1 1 (some (0, p)))) 0 s
        (fun _ => none) := rfl

theorem newFilenameRE_matchAt_succ (start : Nat) (s : List Char) :
    newFilenameRE.matchAt (start + 1) s = none := by
  simp [Regex.matchAt, newFilenameRE, Regex.run]

theorem newFilenameRE_search_succ (s : List Char) :
    ∀ start, newFilenameRE.search (start + 1) s = none := by
  induction s with
  | nil => intro start; simp [Regex.search, newFilenameRE_matchAt_succ]
  | cons ch t ih => intro start; simp [Regex.search, newFilenameRE_matchAt_succ, ih]

theorem newFilenameRE_search (s : List Char) :
    newFilenameRE.search 0 s = newFilenameRE.matchAt 0 s := by
  cases s with
  | nil => rfl
  | cons ch t =>
    simp only [Regex.search]
    cases newFilenameRE.matchAt 0 (ch :: t) with
    | some r => rfl
    | none => exact newFilenameRE_search_succ t 0

theorem parseTail_sound {u ds ext : List Char} (h : parseTail u = some (ds, ext)) :
    validExt ext ∧ ((ds = [] ∧ u = ext) ∨ (validDigits ds ∧ u = suffixText ds ++ ext)) := by
  unfold parseTail at h
  cases hps : parseSuffix u with
  | none =>
    simp only [hps] at h
    split at h
    · rename_i hc
      simp only [Option.some.injEq, Prod.mk.injEq] at h
      obtain ⟨h1, h2⟩ := h
      subst h1; subst h2
      exact ⟨hc.symm, Or.inl ⟨rfl, rfl⟩⟩
    · simp at h
  | some pr =>
    obtain ⟨ds1, rest⟩ := pr
    simp only [hps] at h
    split at h
    · rename_i hc
      simp only [Option.some.injEq, Prod.mk.injEq] at h
      obtain ⟨h1, h2⟩ := h
      subst h1; subst h2
      obtain ⟨hu, hds⟩ := parseSuffix_sound hps
      exact ⟨hc.symm, Or.inr ⟨hds, hu⟩⟩
    · simp at h

theorem parseTail_suffix {ds ext : List Char} (hds : validDigits ds) (hext : validExt ext) :
    parseTail (suffixText ds ++ ext) = some (ds, ext) := by
  unfold parseTail
  rw [parseSuffix_complete hds]
  simp only
  rw [if_pos hext.symm]

theorem parseTail_ext {ext : List Char} (hext : validExt ext) :
    parseTail ext = some ([], ext) := by
  unfold parseTail
  have : parseSuffix ext = none := by
    rcases hext with rfl | h
    · rfl
    · match ext, h with
      | ch :: t, h =>
        have hch : ch = '.' := by
          simp only [extOK, Bool.and_eq_true, beq_iff_eq] at h
          exact h.1
        subst hch
        match t with
        | [] => rfl
        | [_] => rfl
        | _ :: _ :: _ => simp [parseSuffix]
  rw [this]
  simp only
  rw [if_pos hext.symm]

theorem slice_none (a : List Char) : slice a none = [] := rfl

theorem slice_prefix (a b : List Char) : slice (a ++ b) (some (0, a.length)) = a := by
  simp [slice]

theorem slice_all (a : List Char) (n : Nat) (h : n = a.length) : slice a (some (0, n)) = a := by
  subst h; simp [slice]

theorem slice_mid (a b c : List Char) (i j : Nat) (hi : i = a.length)
    (hj : j = a.length + b.length) : slice (a ++ b ++ c) (some (i, j)) = b := by
  subst hi; subst hj
  simp [slice]

/-- The submatches of `newFilenameRE` on a name that splits into a stem and a tail,
the tail matching at no earlier offset. -/
theorem find_split {stem u ds ext : List Char} (hstem : ∀ ch ∈ stem, ch ≠ newline)
    (hmin : ∀ i, i < stem.length → parseTail (stem.drop i ++ u) = none)
    (hu : parseTail u = some (ds, ext)) :
    newFilenameRE.FindStringSubmatch 3 (stem ++ u) = some [stem ++ u, stem, ds, ext] := by
  have hcl : ∀ ch ∈ stem, CharClass.anyNotNL.test ch = true := by
    intro ch hch
    simpa [CharClass.test] using hstem ch hch
  have hskip := starLazyRun_skip .anyNotNL
    (fun p s1 c1 => tailCont 0 p s1 (Function.update c1 1 (some (0, p)))) (fun _ => none) u
    stem 0 hcl (by
      intro i hi
      simp only [tailCont_eq, hmin i hi])
  have hok : (fun p s1 c1 => tailCont 0 p s1 (Function.update c1 1 (some (0, p))))
      (0 + stem.length) u (fun _ => none) =
        some (tailCaps 0 (0 + stem.length) u
          (Function.update (fun _ => none) 1 (some (0, 0 + stem.length))) ds ext) := by
    simp only [tailCont_eq, hu]
  have hrun := @starLazyRun_of_cont .anyNotNL
    (fun p s1 c1 => tailCont 0 p s1 (Function.update c1 1 (some (0, p))))
    (0 + stem.length) u (fun _ => none) _ hok
  unfold Regex.FindStringSubmatch
  rw [newFilenameRE_search, newFilenameRE_matchAt_zero, hskip, hrun]
  obtain ⟨hext, hshape⟩ := parseTail_sound hu
  have hrange : List.range (3 + 1) = [0, 1, 2, 3] := by decide
  simp only [Option.map_some', hrange, List.map_cons, List.map_nil, Option.some.injEq,
    Nat.zero_add]
  rcases hshape with ⟨hds, hue⟩ | ⟨hds, hue⟩
  · subst hds; subst hue
    by_cases he : u = []
    · subst he
      simp [tailCaps, slice, Function.update]
    · have e1 : slice (stem ++ u) (some (stem.length, stem.length + u.length)) = u := by
        have := slice_mid stem u [] stem.length (stem.length + u.length) rfl rfl
        simpa using this
      simp [tailCaps, Function.update, he, slice_prefix, slice_all, e1, slice_none]
  · have hdsne : ds ≠ [] := by
      rintro rfl
      have := hds.2.1
      simp at this
    have hul : u.length = 3 + ds.length + ext.length := by
      rw [hue]; simp [suffixText]; omega
    have hs : stem ++ u = (stem ++ [' ', '(']) ++ ds ++ (')' :: ext) := by
      rw [hue]; simp [suffixText]
    have e2 : slice (stem ++ u) (some (stem.length + 2, stem.length + 2 + ds.length)) = ds := by
      rw [hs]
      exact slice_mid _ _ _ _ _ (by simp) (by simp)
    have hs3 : stem ++ u = (stem ++ suffixText ds) ++ ext ++ [] := by
      rw [hue]; simp
    have e3 : slice (stem ++ u) (some (stem.length + u.length - ext.length,
        stem.length + u.length)) = ext := by
      rw [hs3]
      exact slice_mid _ _ _ _ _ (by simp [suffixText]; omega) (by simp [suffixText]; omega)
    by_cases he : ext = []
    · simp [tailCaps, Function.update, he, hdsne, slice_prefix, slice_all, e2, slice_none]
    · simp [tailCaps, Function.update, he, hdsne, slice_prefix, slice_all, e2, e3, slice_none]

/-! ### Decimal conversion -/

theorem toDigitsCore_append : ∀ (fuel n : Nat) (ds : List Char), n < fuel →
    Nat.toDigitsCore 10 fuel n ds = Nat.toDigitsCore 10 (n + 1) n [] ++ ds := by
  intro fuel
  induction fuel using Nat.strong_induction_on with
  | _ fuel ih =>
    intro n ds hn
    cases fuel with
    | zero => omega
    | succ f =>
      simp only [Nat.toDigitsCore]
      by_cases h0 : n / 10 = 0
      · simp [h0]
      · simp only [h0, if_false]
        have hlt : n / 10 < n := Nat.div_lt_self (by omega) (by omega)
        rw [ih f (by omega) (n / 10) _ (by omega)]
        have := ih n (by omega) (n / 10) [Nat.digitChar (n % 10)] hlt
        rw [this]
        simp

theorem Itoa_lt_ten {n : Nat} (h : n < 10) : Itoa n = [Nat.digitChar n] := by
  have h0 : n / 10 = 0 := by omega
  have hm : n % 10 = n := by omega
  simp [Itoa, Nat.toDigits, Nat.toDigitsCore, h0, hm]

theorem Itoa_ge_ten {n : Nat} (h : 10 ≤ n) :
    Itoa n = Itoa (n / 10) ++ [Nat.digitChar (n % 10)] := by
  have h0 : n / 10 ≠ 0 := by omega
  have hlt : n / 10 < n := Nat.div_lt_self (by omega) (by omega)
  have e : Itoa n = Nat.toDigitsCore 10 n (n / 10) [Nat.digitChar (n % 10)] := by
    simp [Itoa, Nat.toDigits, Nat.toDigitsCore, h0]
  rw [e, toDigitsCore_append n (n / 10) _ hlt]
  rfl

theorem digitChar_isDigit {d : Nat} (h : d < 10) : (Nat.digitChar d).isDigit = true := by
  interval_cases d <;> decide

theorem digitChar_toNat {d : Nat} (h : d < 10) : (Nat.digitChar d).toNat - 48 = d := by
  interval_cases d <;> decide

theorem Itoa_digits (n : Nat) : ∀ c ∈ Itoa n, c.isDigit = true := by
  induction n using Nat.strong_induction_on with
  | _ n ih =>
    by_cases h : n < 10
    · rw [Itoa_lt_ten h]
      intro c hc
      simp only [List.mem_singleton] at hc
      subst hc
      exact digitChar_isDigit h
    · rw [Itoa_ge_ten (by omega)]
      intro c hc
      rcases List.mem_append.mp hc with hc | hc
      · exact ih (n / 10) (Nat.div_lt_self (by omega) (by omega)) c hc
      · simp only [List.mem_singleton] at hc
        subst hc
        exact digitChar_isDigit (Nat.mod_lt _ (by omega))

theorem Itoa_value (n : Nat) : digitsValue (Itoa n) = n := by
  induction n using Nat.strong_induction_on with
  | _ n ih =>
    by_cases h : n < 10
    · rw [Itoa_lt_ten h]
      simp [digitsValue, digitChar_toNat h]
    · rw [Itoa_ge_ten (by omega)]
      have := ih (n / 10) (Nat.div_lt_self (by omega) (by omega))
      simp only [digitsValue, List.foldl_append, List.foldl_cons, List.foldl_nil] at this ⊢
      rw [this, digitChar_toNat (Nat.mod_lt _ (by omega))]
      omega

theorem Itoa_length_pos (n : Nat) : 1 ≤ (Itoa n).length := by
  by_cases h : n < 10
  · rw [Itoa_lt_ten h]; simp
  · rw [Itoa_ge_ten (by omega)]; simp

theorem Itoa_length_le : ∀ (k n : Nat), n < 10 ^ (k + 1) → (Itoa n).length ≤ k + 1 := by
  intro k
  induction k with
  | zero =>
    intro n hn
    rw [Itoa_lt_ten (by simpa using hn)]
    simp
  | succ k ih =>
    intro n hn
    by_cases h : n < 10
    · rw [Itoa_lt_ten h]; simp
    · rw [Itoa_ge_ten (by omega)]
      have : n / 10 < 10 ^ (k + 1) := by
        rw [Nat.div_lt_iff_lt_mul (by omega)]
        rw [pow_succ] at hn
        exact hn
      have := ih (n / 10) this
      simp only [List.length_append, List.length_singleton]
      omega

theorem Itoa_valid {n : Nat} (h : n ≤ 9999) : validDigits (Itoa n) :=
  ⟨Itoa_digits n, Itoa_length_pos n, Itoa_length_le 3 n (by norm_num; omega)⟩

theorem Atoi_of_digits {ds : List Char} (h : validDigits ds) :
    Atoi ds = (digitsValue ds, true) := by
  have hne : ds ≠ [] := by
    rintro rfl
    have := h.2.1
    simp at this
  have hall : ds.all Char.isDigit = true := by
    simpa [List.all_eq_true] using h.1
  simp [Atoi, hne, hall, digitsValue]

theorem Atoi_Itoa {n : Nat} (h : n ≤ 9999) : (Atoi (Itoa n)).1 = n := by
  rw [Atoi_of_digits (Itoa_valid h)]
  exact Itoa_value n

/-! ### The next candidate name -/

theorem validExt_mem {ext : List Char} (h : validExt ext) {c : Char} (hc : c ∈ ext) :
    c = '.' ∨ isWordChar c = true := by
  rcases h with rfl | h
  · simp at hc
  · match ext, h, hc with
    | x :: w, h, hc =>
      simp only [extOK, Bool.and_eq_true, beq_iff_eq, List.all_eq_true] at h
      rcases List.mem_cons.mp hc with rfl | hc
      · exact Or.inl h.1
      · exact Or.inr (h.2 c hc)

theorem parseTail_tail_no_space {v : List Char} {pr : List Char × List Char}
    (h : parseTail v = some pr) : ' ' ∉ v.tail := by
  obtain ⟨ds, ext⟩ := pr
  obtain ⟨hext, hshape⟩ := parseTail_sound h
  have hextsp : ' ' ∉ ext := by
    intro hm
    rcases validExt_mem hext hm with h1 | h1
    · revert h1; decide
    · revert h1; decide
  rcases hshape with ⟨_, hv⟩ | ⟨hds, hv⟩
  · subst hv
    intro hm
    exact hextsp (List.mem_of_mem_tail hm)
  · subst hv
    intro hm
    have e : (suffixText ds ++ ext).tail = '(' :: (ds ++ ([')'] ++ ext)) := by
      simp [suffixText]
    rw [e] at hm
    rcases List.mem_cons.mp hm with h0 | h0
    · revert h0; decide
    · rcases List.mem_append.mp h0 with h0 | h0
      · have := hds.1 _ h0
        revert this; decide
      · rcases List.mem_append.mp h0 with h0 | h0
        · rw [List.mem_singleton] at h0
          revert h0; decide
        · exact hextsp h0

theorem parseTail_none_of_space {v : List Char} (hv : v ≠ []) (w : List Char) :
    parseTail (v ++ ' ' :: w) = none := by
  cases h : parseTail (v ++ ' ' :: w) with
  | none => rfl
  | some pr =>
    exfalso
    apply parseTail_tail_no_space h
    match v, hv with
    | a :: v1, _ => simp

/-- The next name and the parsed disambiguator of a name that splits into a stem and
a tail which matches at no earlier offset. -/
theorem nextName_of_split {stem u ds ext : List Char} (hstem : ∀ ch ∈ stem, ch ≠ newline)
    (hmin : ∀ i, i < stem.length → parseTail (stem.drop i ++ u) = none)
    (hu : parseTail u = some (ds, ext)) :
    nextName (stem ++ u) =
        some (stem ++ suffixText (Itoa ((if ds = [] then 0 else (Atoi ds).1) + 1)) ++ ext) ∧
      nameDisambiguator (stem ++ u) = (if ds = [] then 0 else (Atoi ds).1) := by
  have hfind := find_split hstem hmin hu
  constructor
  · simp only [nextName, hfind, disambiguator]
    by_cases hds : ds = []
    · simp [hds, suffixText]
    · simp [hds, suffixText]
  · simp only [nameDisambiguator, hfind, disambiguator]
    by_cases hds : ds = []
    · simp [hds]
    · simp [hds]

theorem drop_ne_nil {l : List Char} {i : Nat} (h : i < l.length) : l.drop i ≠ [] := by
  intro h0
  have := congrArg List.length h0
  simp at this
  omega

/-- A name that ends in a numeric suffix and an optional extension is parsed there. -/
theorem nextName_suffix {stem ds ext : List Char} (hstem : ∀ ch ∈ stem, ch ≠ newline)
    (hds : validDigits ds) (hext : validExt ext) :
    nextName (stem ++ suffixText ds ++ ext) =
        some (stem ++ suffixText (Itoa ((Atoi ds).1 + 1)) ++ ext) ∧
      nameDisambiguator (stem ++ suffixText ds ++ ext) = (Atoi ds).1 := by
  have hdsne : ds ≠ [] := by
    rintro rfl
    have := hds.2.1
    simp at this
  have h := nextName_of_split (u := suffixText ds ++ ext) hstem
    (by
      intro i hi
      have := parseTail_none_of_space (drop_ne_nil hi) ('(' :: (ds ++ [')']) ++ ext)
      simpa [suffixText] using this)
    (parseTail_suffix hds hext)
  simpa [hdsne, List.append_assoc] using h

theorem parseTail_none_of_ext {v w : List Char} (hv : v ≠ [])
    (hvs : ∀ ds, validDigits ds → v ≠ suffixText ds)
    (hw : ∀ c ∈ w, isWordChar c = true) : parseTail (v ++ '.' :: w) = none := by
  cases h : parseTail (v ++ '.' :: w) with
  | none => rfl
  | some pr =>
    exfalso
    obtain ⟨ds, ext⟩ := pr
    obtain ⟨hext, hshape⟩ := parseTail_sound h
    have hdotw : '.' ∉ w := by
      intro hm
      have := hw _ hm
      revert this; decide
    rcases hshape with ⟨_, hu⟩ | ⟨hds, hu⟩
    · -- the whole text would be an extension, but it has a dot after its first character
      rcases hext with rfl | hok
      · simp at hu
      · rw [← hu] at hok
        match v, hv, hok with
        | a :: v1, _, hok =>
          simp only [List.cons_append, extOK, Bool.and_eq_true, beq_iff_eq,
            List.all_eq_true] at hok
          have := hok.2 '.' (by simp)
          revert this; decide
    · rcases hext with rfl | hok
      · -- the text would end in a closing parenthesis
        have h1 : (v ++ '.' :: w).getLast? = (suffixText ds ++ []).getLast? := by rw [hu]
        have e2 : suffixText ds ++ [] = ([' ', '('] ++ ds) ++ [')'] := by simp [suffixText]
        rw [e2, List.getLast?_concat] at h1
        rcases List.eq_nil_or_concat w with hw0 | ⟨w1, x, hw1⟩
        · subst hw0
          rw [List.getLast?_concat] at h1
          revert h1; decide
        · rw [List.concat_eq_append] at hw1
          subst hw1
          have e3 : v ++ '.' :: (w1 ++ [x]) = (v ++ '.' :: w1) ++ [x] := by simp
          rw [e3, List.getLast?_concat] at h1
          have hx := hw x (by simp)
          simp only [Option.some.injEq] at h1
          subst h1
          revert hx; decide
      · match ext, hok with
        | x :: w2, hok =>
          simp only [extOK, Bool.and_eq_true, beq_iff_eq, List.all_eq_true] at hok
          obtain ⟨hx, hw2⟩ := hok
          subst hx
          have hdotw2 : '.' ∉ w2 := by
            intro hm
            have := hw2 _ hm
            revert this; decide
          have hdots : '.' ∉ suffixText ds := by
            simp only [suffixText, List.mem_cons, List.mem_append, List.mem_singleton, not_or]
            refine ⟨by decide, by decide, ?_, by decide⟩
            intro hm
            have := hds.1 _ hm
            revert this; decide
          have := (List.append_cons_inj_of_not_mem hdots hdotw2).mp hu.symm
          exact hvs ds hds this.1.symm

/-- A name with an extension whose stem does not end in a numeric suffix gets the
suffix ` (1)` between the stem and the extension. -/
theorem nextName_plain {stem w : List Char} (hstem : ∀ ch ∈ stem, ch ≠ newline)
    (hns : noSuffix stem) (hw : ∀ c ∈ w, isWordChar c = true) :
    nextName (stem ++ '.' :: w) = some (stem ++ suffixText ['1'] ++ '.' :: w) ∧
      nameDisambiguator (stem ++ '.' :: w) = 0 := by
  have hext : validExt ('.' :: w) := by
    right
    simpa [extOK] using hw
  have h := nextName_of_split (u := '.' :: w) hstem
    (by
      intro i hi
      apply parseTail_none_of_ext (drop_ne_nil hi) _ hw
      intro ds hds heq
      apply hns (stem.take i) ds hds
      rw [← heq, List.take_append_drop])
    (parseTail_ext hext)
  have h1 : Itoa 1 = ['1'] := by decide
  simpa [h1] using h

/-- Every name without a line feed has a first split point at which the tail matches. -/
theorem exists_min_split : ∀ (s : List Char), (∀ ch ∈ s, ch ≠ newline) →
    ∃ stem u ds ext, s = stem ++ u ∧ parseTail u = some (ds, ext) ∧
      ∀ i, i < stem.length → parseTail (stem.drop i ++ u) = none := by
  intro s
  induction s with
  | nil =>
    intro _
    exact ⟨[], [], [], [], rfl, by decide, by simp⟩
  | cons ch t ih =>
    intro hs
    cases hp : parseTail (ch :: t) with
    | some pr => exact ⟨[], ch :: t, pr.1, pr.2, rfl, hp, by simp⟩
    | none =>
      obtain ⟨stem, u, ds, ext, hst, hu, hmin⟩ := ih (fun c hc => hs c (by simp [hc]))
      refine ⟨ch :: stem, u, ds, ext, by simp [hst], hu, ?_⟩
      intro i hi
      cases i with
      | zero => simpa [hst] using hp
      | succ j => simpa using hmin j (by simpa using hi)

/-! ### `NewFile` -/

theorem osOpenFileExcl_ok {name : List Char} {w w1 : World} {f : File}
    (h : osOpenFileExcl name w = (.ok f, w1)) :
    f.path = name ∧ w.names name = none ∧ w1.names name = some f.id ∧ w1.data f.id = [] ∧
      w1.log = w.log ++ [.openExcl name] := by
  unfold osOpenFileExcl at h
  split at h
  · simp at h
  · split at h
    · simp at h
    · rename_i hn
      simp only [Prod.mk.injEq, Except.ok.injEq] at h
      obtain ⟨hf, hw⟩ := h
      subst hf; subst hw
      simp [hn, World.tick]

theorem osOpenFileExcl_error {name : List Char} {w w1 : World} {e : Error}
    (h : osOpenFileExcl name w = (.error e, w1)) :
    w1.names = w.names ∧ w1.data = w.data := by
  unfold osOpenFileExcl at h
  split at h
  · simp only [Prod.mk.injEq] at h
    obtain ⟨_, hw⟩ := h
    subst hw
    simp [World.tick]
  · split at h
    · simp only [Prod.mk.injEq] at h
      obtain ⟨_, hw⟩ := h
      subst hw
      simp [World.tick]
    · simp at h

/-- A file returned by `NewFile` was opened by an exclusive creation that succeeded. -/
theorem NewFile_created : ∀ (fuel : Nat) (name : List Char) (w w1 : World) (f : File),
    NewFile fuel name w = some ((some f, none), w1) →
      w.names f.path = none ∧ w1.names f.path = some f.id ∧ w1.data f.id = [] ∧
        w1.log.getLast? = some (.openExcl f.path) := by
  intro fuel
  induction fuel with
  | zero => intro name w w1 f h; simp [NewFile] at h
  | succ fuel ih =>
    intro name w w1 f h
    simp only [NewFile] at h
    split at h
    · rename_i err w2 hopen
      obtain ⟨hn, _⟩ := osOpenFileExcl_error hopen
      split at h
      · split at h
        · have := ih _ _ _ _ h
          rw [hn] at this
          exact this
        · simp at h
      · simp at h
    · rename_i f1 w2 hopen
      simp only [Option.some.injEq, Prod.mk.injEq, and_true] at h
      obtain ⟨hf, hw⟩ := h
      subst hf; subst hw
      obtain ⟨hp, h1, h2, h3, h4⟩ := osOpenFileExcl_ok hopen
      rw [hp]
      refine ⟨h1, h2, h3, ?_⟩
      rw [h4, List.getLast?_concat]

/-- The names that a call of `NewFile` tries, in order: the system calls it makes are
exclusive creations, the first of the name given and each next one of the name that
`nextName` computes from the one before. -/
theorem NewFile_candidates : ∀ (fuel : Nat) (name : List Char) (w w1 : World)
    (r : Option File × Option Error), NewFile fuel name w = some (r, w1) →
      ∃ cs : List (List Char), w1.log = w.log ++ cs.map Call.openExcl ∧
        cs.head? = some name ∧ List.Chain' (fun a b => nextName a = some b) cs := by
  intro fuel
  induction fuel with
  | zero => intro name w w1 r h; simp [NewFile] at h
  | succ fuel ih =>
    intro name w w1 r h
    have hlog : ∀ (x : Except Error File) (w2 : World), osOpenFileExcl name w = (x, w2) →
        w2.log = w.log ++ [Call.openExcl name] := by
      intro x w2 hx
      unfold osOpenFileExcl at hx
      split at hx
      · simp only [Prod.mk.injEq] at hx
        rw [← hx.2]; rfl
      · split at hx
        · simp only [Prod.mk.injEq] at hx
          rw [← hx.2]; rfl
        · simp only [Prod.mk.injEq] at hx
          rw [← hx.2]; rfl
    have hone : ∀ w2 : World, w2.log = w.log ++ [Call.openExcl name] →
        ∃ cs : List (List Char), w2.log = w.log ++ cs.map Call.openExcl ∧
          cs.head? = some name ∧ List.Chain' (fun a b => nextName a = some b) cs :=
      fun w2 h2 => ⟨[name], by simpa using h2, rfl, List.chain'_singleton _⟩
    simp only [NewFile] at h
    split at h
    · rename_i err w2 hopen
      have hl := hlog _ _ hopen
      split at h
      · split at h
        · rename_i name1 hnext
          obtain ⟨cs, hcs, hhead, hchain⟩ := ih _ _ _ _ h
          refine ⟨name :: cs, ?_, rfl, ?_⟩
          · rw [hcs, hl]; simp
          · rw [List.chain'_cons']
            refine ⟨?_, hchain⟩
            intro y hy
            rw [hhead] at hy
            simp only [Option.mem_def, Option.some.injEq] at hy
            rw [← hy]
            exact hnext
        · simp only [Option.some.injEq, Prod.mk.injEq] at h
          rw [← h.2]
          exact hone _ hl
      · simp only [Option.some.injEq, Prod.mk.injEq] at h
        rw [← h.2]
        exact hone _ hl
    · rename_i f1 w2 hopen
      have hl := hlog _ _ hopen
      simp only [Option.some.injEq, Prod.mk.injEq] at h
      rw [← h.2]
      exact hone _ hl

/-! ### `Copy` -/

/-- What a `Copy` between two different files does to them: the source keeps its
name and content, and after a success the destination has the content of the source. -/
theorem Copy_spec {src dst : List Char} {w w2 : World} {r : Option Error}
    (hwf : w.WF) (hne : w.names src ≠ w.names dst) (h : Copy src dst w = (r, w2)) :
    w2.names src = w.names src ∧ (∀ i, w.names src = some i → w2.data i = w.data i) ∧
      (r = none → ∃ i j, w.names src = some i ∧ w2.names dst = some j ∧ i ≠ j ∧
        w2.data j = w.data i) := by
  unfold Copy at h
  cases hsrc : w.names src with
  | none =>
    have : ∃ e w1, osOpen src w = (.error e, w1) ∧ w1.names = w.names := by
      unfold osOpen
      cases w.faults w.clock with
      | some f => exact ⟨_, _, rfl, rfl⟩
      | none => simp only [hsrc]; exact ⟨_, _, rfl, rfl⟩
    obtain ⟨e, w1, ho, hn⟩ := this
    rw [ho] at h
    simp only [Prod.mk.injEq] at h
    obtain ⟨hr, hw⟩ := h
    subst hr; subst hw
    rw [hn, hsrc]
    simp
  | some i =>
    have hlt : i < w.nextId := hwf src i hsrc
    rw [hsrc] at hne
    cases hf0 : w.faults w.clock with
    | some f =>
      simp only [osOpen, hf0, Prod.mk.injEq] at h
      obtain ⟨hr, hw⟩ := h
      subst hr; subst hw
      simp [World.tick, hsrc]
    | none =>
      simp only [osOpen, hf0, hsrc] at h
      cases hf1 : w.faults (w.clock + 1) with
      | some f =>
        simp only [osCreate, World.tick, hf1, fileClose, Prod.mk.injEq] at h
        obtain ⟨hr, hw⟩ := h
        subst hr; subst hw
        split <;> simp [hsrc]
      | none =>
        simp only [osCreate, World.tick, hf1] at h
        cases hdst : w.names dst with
        | some j =>
          have hij : i ≠ j := by
            intro hij; apply hne; rw [hdst, hij]
          simp only [hdst, ioCopy, fileClose, World.tick] at h
          cases hf2 : w.faults (w.clock + 1 + 1) with
          | some f =>
            simp only [hf2, Prod.mk.injEq] at h
            obtain ⟨hr, hw⟩ := h
            subst hr; subst hw
            refine ⟨?_, ?_, ?_⟩
            · split <;> split <;> simp [hsrc]
            · intro i1 hi1
              simp only [Option.some.injEq] at hi1
              subst hi1
              split <;> split <;> simp [Function.update, hij]
            · simp
          | none =>
            simp only [hf2, Prod.mk.injEq] at h
            obtain ⟨hr, hw⟩ := h
            subst hr; subst hw
            refine ⟨?_, ?_, ?_⟩
            · split <;> split <;> simp [hsrc]
            · intro i1 hi1
              simp only [Option.some.injEq] at hi1
              subst hi1
              split <;> split <;> simp [Function.update, hij]
            · intro _
              refine ⟨i, j, rfl, ?_, hij, ?_⟩
              · split <;> split <;> simp [hdst]
              · split <;> split <;> simp [Function.update, hij, overwrite]
        | none =>
          have hij : i ≠ w.nextId := by omega
          have hsd : src ≠ dst := by
            rintro rfl
            rw [hsrc] at hdst
            simp at hdst
          simp only [hdst, ioCopy, fileClose, World.tick] at h
          cases hf2 : w.faults (w.clock + 1 + 1) with
          | some f =>
            simp only [hf2, Prod.mk.injEq] at h
            obtain ⟨hr, hw⟩ := h
            subst hr; subst hw
            refine ⟨?_, ?_, ?_⟩
            · split <;> split <;> simp [Function.update, hsd, hsrc]
            · intro i1 hi1
              simp only [Option.some.injEq] at hi1
              subst hi1
              split <;> split <;> simp [Function.update, hij]
            · simp
          | none =>
            simp only [hf2, Prod.mk.injEq] at h
            obtain ⟨hr, hw⟩ := h
            subst hr; subst hw
            refine ⟨?_, ?_, ?_⟩
            · split <;> split <;> simp [Function.update, hsd, hsrc]
            · intro i1 hi1
              simp only [Option.some.injEq] at hi1
              subst hi1
              split <;> split <;> simp [Function.update, hij]
            · intro _
              refine ⟨i, w.nextId, rfl, ?_, hij, ?_⟩
              · split <;> split <;> simp [Function.update]
              · split <;> split <;> simp [Function.update, hij, overwrite]

theorem fileClose_goos (f : File) (w : World) : (fileClose f w).2.goos = w.goos := by
  unfold fileClose; split <;> rfl

theorem osOpen_goos (n : List Char) (w : World) : (osOpen n w).2.goos = w.goos := by
  unfold osOpen; split
  · rfl
  · split <;> rfl

theorem osCreate_goos (n : List Char) (w : World) : (osCreate n w).2.goos = w.goos := by
  unfold osCreate; split
  · rfl
  · split <;> rfl

theorem ioCopy_goos (a b : File) (w : World) : (ioCopy a b w).2.goos = w.goos := by
  unfold ioCopy; split <;> rfl

theorem osRename_goos (a b : List Char) (w : World) : (osRename a b w).2.goos = w.goos := by
  unfold osRename; split
  · rfl
  · split
    · rfl
    · split <;> rfl

theorem osRemove_goos (n : List Char) (w : World) : (osRemove n w).2.goos = w.goos := by
  unfold osRemove; split
  · rfl
  · split <;> rfl

theorem Copy_goos (src dst : List Char) (w : World) : (Copy src dst w).2.goos = w.goos := by
  unfold Copy
  have h1 := osOpen_goos src w
  rcases ho : osOpen src w with ⟨r1, w1⟩
  rw [ho] at h1
  cases r1 with
  | error e => exact h1
  | ok inp =>
    dsimp only
    have h2 := osCreate_goos dst w1
    rcases hc : osCreate dst w1 with ⟨r2, w2⟩
    rw [hc] at h2
    cases r2 with
    | error e =>
      show (fileClose inp w2).2.goos = w.goos
      rw [fileClose_goos, h2, h1]
    | ok out =>
      show (fileClose inp (fileClose out (ioCopy out inp w2).2).2).2.goos = w.goos
      rw [fileClose_goos, fileClose_goos, ioCopy_goos, h2, h1]

/-! ### `Move` -/

/-- A rename that failed with the not-same-device error changed nothing. -/
theorem osRename_notSameDevice {src dst : List Char} {w : World}
    (h : isNotSameDevice w.goos (osRename src dst w).1 = true) :
    (osRename src dst w).2 = w.tick (.rename src dst) := by
  unfold osRename at h ⊢
  cases hf : w.faults w.clock with
  | some f => rfl
  | none =>
    simp only [hf] at h ⊢
    cases hs : w.names src with
    | none => rfl
    | some i =>
      simp only [hs] at h
      split at h <;> simp [isNotSameDevice] at h

theorem isNotSameDevice_iff (g : GOOS) (err : Option Error) :
    isNotSameDevice g err = true ↔
      ∃ e, err = some e ∧
        asLinkError e = some (.errno (if g = .windows then 0x11 else 0x12)) := by
  unfold isNotSameDevice
  cases err with
  | none => simp
  | some e =>
    cases hl : asLinkError e with
    | none => simp [hl]
    | some cause =>
      by_cases hg : g = .windows
      · simp [hl, hg]
      · simp [hl, hg]

theorem Move_of_same_device {src dst : List Char} {w : World}
    (h : isNotSameDevice w.goos (osRename src dst w).1 = false) :
    Move src dst w = osRename src dst w := by
  unfold Move
  rcases hr : osRename src dst w with ⟨err, w1⟩
  have hg : w1.goos = w.goos := by
    have := osRename_goos src dst w
    rw [hr] at this
    exact this
  rw [hr] at h
  simp only [hg, h, Bool.false_eq_true, if_false]

theorem Move_fallback {src dst : List Char} {w : World}
    (h : isNotSameDevice w.goos (osRename src dst w).1 = true) :
    Move src dst w =
      match Copy src dst (w.tick (.rename src dst)) with
      | (some err, w2) => (some err, w2)
      | (none, w2) =>
        (if errorsIsOpt w.goos (osRemove src w2).1 ErrNotExist then none
          else (osRemove src w2).1, (osRemove src w2).2) := by
  have hw := osRename_notSameDevice h
  unfold Move
  rcases hr : osRename src dst w with ⟨err, w1⟩
  rw [hr] at h hw
  simp only at hw
  subst hw
  have hg : (w.tick (.rename src dst)).goos = w.goos := rfl
  simp only [hg, h, if_true]
  rcases hc : Copy src dst (w.tick (.rename src dst)) with ⟨r, w2⟩
  have hg2 : w2.goos = w.goos := by
    have := Copy_goos src dst (w.tick (.rename src dst))
    rw [hc] at this
    exact this
  cases r with
  | some e => rfl
  | none =>
    simp only
    have hg3 : (osRemove src w2).2.goos = w.goos := by rw [osRemove_goos, hg2]
    rcases hrm : osRemove src w2 with ⟨e3, w3⟩
    rw [hrm] at hg3
    simp only at hg3
    simp only [hg3]
    split <;> rfl

/-- What any `Copy` does to the names: only the destination may be added, as a new
file; a successful one created or truncated the destination. -/
theorem Copy_frame {src dst : List Char} {w w2 : World} {r : Option Error}
    (h : Copy src dst w = (r, w2)) :
    (∀ p, p ≠ dst → w2.names p = w.names p) ∧
      ((w2.names dst = w.names dst ∧ w2.nextId = w.nextId) ∨
        (w.names dst = none ∧ w2.names dst = some w.nextId ∧ w2.nextId = w.nextId + 1)) ∧
      (r = none → Call.create dst ∈ w2.log.drop w.log.length) := by
  unfold Copy at h
  cases hf0 : w.faults w.clock with
  | some f =>
    simp only [osOpen, hf0, Prod.mk.injEq] at h
    obtain ⟨hr, hw⟩ := h
    subst hr; subst hw
    simp [World.tick]
  | none =>
    cases hsrc : w.names src with
    | none =>
      simp only [osOpen, hf0, hsrc, Prod.mk.injEq] at h
      obtain ⟨hr, hw⟩ := h
      subst hr; subst hw
      simp [World.tick]
    | some i =>
      simp only [osOpen, hf0, hsrc] at h
      cases hf1 : w.faults (w.clock + 1) with
      | some f =>
        simp only [osCreate, World.tick, hf1, fileClose, Prod.mk.injEq] at h
        obtain ⟨hr, hw⟩ := h
        subst hr; subst hw
        split <;> simp
      | none =>
        simp only [osCreate, World.tick, hf1] at h
        cases hdst : w.names dst with
        | some j =>
          simp only [hdst, ioCopy, fileClose, World.tick] at h
          cases hf2 : w.faults (w.clock + 1 + 1) with
          | some f =>
            simp only [hf2, Prod.mk.injEq] at h
            obtain ⟨hr, hw⟩ := h
            subst hr; subst hw
            refine ⟨?_, ?_, ?_⟩
            · intro p _; split <;> split <;> rfl
            · left; split <;> split <;> simp [hdst]
            · simp
          | none =>
            simp only [hf2, Prod.mk.injEq] at h
            obtain ⟨hr, hw⟩ := h
            subst hr; subst hw
            refine ⟨?_, ?_, ?_⟩
            · intro p _; split <;> split <;> rfl
            · left; split <;> split <;> simp [hdst]
            · intro _; split <;> split <;> simp
        | none =>
          simp only [hdst, ioCopy, fileClose, World.tick] at h
          cases hf2 : w.faults (w.clock + 1 + 1) with
          | some f =>
            simp only [hf2, Prod.mk.injEq] at h
            obtain ⟨hr, hw⟩ := h
            subst hr; subst hw
            refine ⟨?_, ?_, ?_⟩
            · intro p hp; split <;> split <;> simp [Function.update, hp]
            · right; split <;> split <;> simp
            · simp
          | none =>
            simp only [hf2, Prod.mk.injEq] at h
            obtain ⟨hr, hw⟩ := h
            subst hr; subst hw
            refine ⟨?_, ?_, ?_⟩
            · intro p hp; split <;> split <;> simp [Function.update, hp]
            · right; split <;> split <;> simp
            · intro _; split <;> split <;> simp

theorem Copy_WF {src dst : List Char} {w w2 : World} {r : Option Error}
    (hwf : w.WF) (h : Copy src dst w = (r, w2)) : w2.WF := by
  obtain ⟨hother, hdst, _⟩ := Copy_frame h
  intro p i hp
  by_cases hpd : p = dst
  · subst hpd
    rcases hdst with ⟨h1, h2⟩ | ⟨_, h1, h2⟩
    · rw [h1] at hp
      rw [h2]
      exact hwf _ _ hp
    · rw [h1] at hp
      simp only [Option.some.injEq] at hp
      omega
  · rw [hother p hpd] at hp
    have := hwf _ _ hp
    rcases hdst with ⟨_, h2⟩ | ⟨_, _, h2⟩ <;> omega

/-! ### `Lnky` -/

theorem osStat_world (n : List Char) (w : World) : (osStat n w).2 = w.tick (.stat n) := by
  unfold osStat
  split
  · rfl
  · split <;> rfl

theorem osStat_ok {n : List Char} {w w1 : World} {i : Nat} (h : osStat n w = (.ok i, w1)) :
    w.names n = some i ∧ w1 = w.tick (.stat n) := by
  have hw := osStat_world n w
  rw [h] at hw
  refine ⟨?_, hw⟩
  unfold osStat at h
  split at h
  · simp at h
  · split at h
    · rename_i j hj
      simp only [Prod.mk.injEq, Except.ok.injEq] at h
      rw [hj, h.1]
    · simp at h

theorem osStat_of_names {n : List Char} {w : World} {i : Nat} (hf : w.faults w.clock = none)
    (hn : w.names n = some i) : osStat n w = (.ok i, w.tick (.stat n)) := by
  simp [osStat, hf, hn]

/-- The effect of `os.Link`: on success the new path names the file of the old path,
on failure nothing changes. -/
theorem osLink_spec {old new : List Char} {w w1 : World} {r : Option Error}
    (h : osLink old new w = (r, w1)) :
    w1.nextId = w.nextId ∧ w1.data = w.data ∧ w1.log = w.log ++ [.link old new] ∧
      (r = none → ∃ i, w.names old = some i ∧ w.names new = none ∧
        w1.names = Function.update w.names new (some i)) ∧
      (r ≠ none → w1.names = w.names) := by
  unfold osLink at h
  split at h
  · simp only [Prod.mk.injEq] at h
    obtain ⟨hr, hw⟩ := h
    subst hr; subst hw
    simp [World.tick]
  · split at h
    · simp only [Prod.mk.injEq] at h
      obtain ⟨hr, hw⟩ := h
      subst hr; subst hw
      simp [World.tick]
    · rename_i i hi
      split at h
      · simp only [Prod.mk.injEq] at h
        obtain ⟨hr, hw⟩ := h
        subst hr; subst hw
        simp [World.tick]
      · rename_i hn
        simp only [Prod.mk.injEq] at h
        obtain ⟨hr, hw⟩ := h
        subst hr; subst hw
        simp only [World.tick, hn, true_and, ne_eq, not_true_eq_false, false_implies,
          and_true, forall_const]
        exact ⟨i, hi, rfl⟩

/-- When both `Stat` calls report the same file, `Lnky` returns success having made
no other call. -/
theorem Lnky_same {src dst : List Char} {w w1 w2 : World} {i : Nat}
    (h1 : osStat src w = (.ok i, w1)) (h2 : osStat dst w1 = (.ok i, w2)) :
    Lnky src dst w = (none, w2) ∧ w2.names = w.names ∧ w2.data = w.data ∧
      w2.log = w.log ++ [.stat src, .stat dst] := by
  obtain ⟨_, hw1⟩ := osStat_ok h1
  obtain ⟨_, hw2⟩ := osStat_ok h2
  refine ⟨?_, ?_, ?_, ?_⟩
  · simp [Lnky, h1, h2, osSameFile, Except.toOption]
  · subst hw2; subst hw1; rfl
  · subst hw2; subst hw1; rfl
  · subst hw2; subst hw1; simp [World.tick]

theorem mem_drop_of_le {x : Call} {l : List Call} {a b : Nat} (hab : a ≤ b)
    (h : x ∈ l.drop b) : x ∈ l.drop a := by
  have : l.drop b = (l.drop a).drop (b - a) := by
    rw [List.drop_drop]; congr 1; omega
  rw [this] at h
  exact List.mem_of_mem_drop h

/-- After a successful `Lnky` the destination is the same file as the source, or
another file with the same content. -/
theorem Lnky_post {src dst : List Char} {w w1 : World} (hwf : w.WF)
    (h : Lnky src dst w = (none, w1)) :
    w1.WF ∧ ∃ i, w1.names src = some i ∧
      (w1.names dst = some i ∨ ∃ j, j ≠ i ∧ w1.names dst = some j ∧ w1.data j = w1.data i) := by
  unfold Lnky at h
  rcases hs : osStat src w with ⟨r1, wa⟩
  rw [hs] at h
  cases r1 with
  | error e => simp at h
  | ok sfi =>
    obtain ⟨hsrc, hwa⟩ := osStat_ok hs
    dsimp only at h
    have hwb := osStat_world dst wa
    rcases hd : osStat dst wa with ⟨dfi, wb⟩
    rw [hd] at h hwb
    dsimp only at h hwb
    have hnb : wb.names = w.names := by subst hwb; subst hwa; rfl
    have hxb : wb.nextId = w.nextId := by subst hwb; subst hwa; rfl
    have hwfb : wb.WF := by
      intro p i hp
      rw [hnb] at hp
      rw [hxb]
      exact hwf p i hp
    by_cases hsame : osSameFile (some sfi) dfi.toOption = true
    · simp only [hsame, if_true, Prod.mk.injEq, true_and] at h
      subst h
      refine ⟨hwfb, sfi, by rw [hnb]; exact hsrc, Or.inl ?_⟩
      cases dfi with
      | error e => simp [osSameFile, Except.toOption] at hsame
      | ok j =>
        simp only [osSameFile, Except.toOption, decide_eq_true_eq] at hsame
        obtain ⟨hj, _⟩ := osStat_ok hd
        subst hsame
        rw [hnb]
        subst hwa
        exact hj
    · simp only [hsame, Bool.false_eq_true, if_false] at h
      rcases hl : osLink src dst wb with ⟨r3, wc⟩
      rw [hl] at h
      obtain ⟨hxc, hdc, _, hok, herr⟩ := osLink_spec hl
      cases r3 with
      | none =>
        simp only [Prod.mk.injEq, true_and] at h
        subst h
        obtain ⟨i, hi, hnew, hnames⟩ := hok rfl
        rw [hnb] at hi hnew hnames
        have hi2 : i = sfi := by
          rw [hsrc] at hi
          simpa using hi.symm
        subst hi2
        have hsd : src ≠ dst := by
          rintro rfl
          rw [hsrc] at hnew
          simp at hnew
        refine ⟨?_, i, ?_, Or.inl ?_⟩
        · intro p k hp
          rw [hnames] at hp
          rw [hxc, hxb]
          by_cases hpd : p = dst
          · subst hpd
            simp only [Function.update_same, Option.some.injEq] at hp
            subst hp
            exact hwf _ _ hsrc
          · rw [Function.update_noteq hpd] at hp
            exact hwf _ _ hp
        · rw [hnames, Function.update_noteq hsd]
          exact hsrc
        · rw [hnames, Function.update_same]
      | some e =>
        dsimp only at h
        have hnc : wc.names = w.names := by rw [herr (by simp), hnb]
        have hwfc : wc.WF := by
          intro p i hp
          rw [hnc] at hp
          rw [hxc, hxb]
          exact hwf p i hp
        refine ⟨Copy_WF hwfc h, ?_⟩
        by_cases hne : wc.names src = wc.names dst
        · obtain ⟨hother, hdst, _⟩ := Copy_frame h
          have hdsti : wc.names dst = some sfi := by rw [← hne, hnc]; exact hsrc
          have hd1 : w1.names dst = some sfi := by
            rcases hdst with ⟨h1, _⟩ | ⟨h1, _⟩
            · rw [h1]; exact hdsti
            · rw [hdsti] at h1
              simp at h1
          refine ⟨sfi, ?_, Or.inl hd1⟩
          by_cases hsd : src = dst
          · subst hsd; exact hd1
          · rw [hother src hsd, hnc]; exact hsrc
        · obtain ⟨hs1, hdata, hok2⟩ := Copy_spec hwfc hne h
          obtain ⟨i, j, hi, hj, hij, hdj⟩ := hok2 rfl
          refine ⟨i, by rw [hs1]; exact hi, Or.inr ⟨j, fun hh => hij hh.symm, hj, ?_⟩⟩
          rw [hdj, hdata i hi]

/-- A successful `Lnky` onto a destination that is a separate file copies the source
over it once more. -/
theorem Lnky_again {src dst : List Char} {w w1 : World} {i j : Nat} (hwf : w.WF)
    (hi : w.names src = some i) (hj : w.names dst = some j) (hij : j ≠ i)
    (h : Lnky src dst w = (none, w1)) :
    w1.names dst = some j ∧ w1.data j = w.data i ∧ Call.create dst ∈ w1.log.drop w.log.length := by
  unfold Lnky at h
  rcases hs : osStat src w with ⟨r1, wa⟩
  rw [hs] at h
  cases r1 with
  | error e => simp at h
  | ok sfi =>
    obtain ⟨hsrc, hwa⟩ := osStat_ok hs
    have hsfi : sfi = i := by
      rw [hi] at hsrc
      simpa using hsrc.symm
    subst hsfi
    dsimp only at h
    have hwb := osStat_world dst wa
    rcases hd : osStat dst wa with ⟨dfi, wb⟩
    rw [hd] at h hwb
    dsimp only at h hwb
    have hnb : wb.names = w.names := by subst hwb; subst hwa; rfl
    have hxb : wb.nextId = w.nextId := by subst hwb; subst hwa; rfl
    have hdb : wb.data = w.data := by subst hwb; subst hwa; rfl
    have hlb : wb.log = w.log ++ [.stat src, .stat dst] := by
      subst hwb; subst hwa; simp [World.tick]
    have hsame : osSameFile (some sfi) dfi.toOption = false := by
      cases dfi with
      | error e => simp [osSameFile, Except.toOption]
      | ok k =>
        obtain ⟨hk, _⟩ := osStat_ok hd
        have : k = j := by
          subst hwa
          have hk2 : w.names dst = some k := hk
          rw [hj] at hk2
          simpa using hk2.symm
        subst this
        simp only [osSameFile, Except.toOption, decide_eq_false_iff_not]
        exact fun hh => hij hh.symm
    simp only [hsame, Bool.false_eq_true, if_false] at h
    rcases hl : osLink src dst wb with ⟨r3, wc⟩
    rw [hl] at h
    obtain ⟨hxc, hdc, hlc, hok, herr⟩ := osLink_spec hl
    cases r3 with
    | none =>
      obtain ⟨_, _, hnew, _⟩ := hok rfl
      rw [hnb, hj] at hnew
      simp at hnew
    | some e =>
      dsimp only at h
      have hnc : wc.names = w.names := by rw [herr (by simp), hnb]
      have hwfc : wc.WF := by
        intro p k hp
        rw [hnc] at hp
        rw [hxc, hxb]
        exact hwf p k hp
      have hne : wc.names src ≠ wc.names dst := by
        rw [hnc, hi, hj]
        intro hh
        simp only [Option.some.injEq] at hh
        exact hij hh.symm
      obtain ⟨_, _, hok2⟩ := Copy_spec hwfc hne h
      obtain ⟨_, hdst, hlog⟩ := Copy_frame h
      obtain ⟨i1, j1, hi1, hj1, _, hdj⟩ := hok2 rfl
      rw [hnc, hi] at hi1
      simp only [Option.some.injEq] at hi1
      subst hi1
      have hj2 : w1.names dst = some j := by
        rcases hdst with ⟨h1, _⟩ | ⟨h1, _⟩
        · rw [h1, hnc]; exact hj
        · rw [hnc, hj] at h1
          simp at h1
      have hjj : j1 = j := by
        rw [hj1] at hj2
        simpa using hj2
      subst hjj
      refine ⟨hj2, by rw [hdj, hdc, hdb], ?_⟩
      apply mem_drop_of_le _ (hlog rfl)
      rw [hlc, hlb]
      simp

/-- A `Lnky` onto a destination that is a separate file succeeds when none of its
eight system calls is made to fail: the link is refused because the destination
exists, and the copy goes through. -/
theorem Lnky_again_ok {src dst : List Char} {w : World} {i j : Nat}
    (hi : w.names src = some i) (hj : w.names dst = some j) (hij : j ≠ i)
    (hf : ∀ n, n < 8 → w.faults (w.clock + n) = none) : (Lnky src dst w).1 = none := by
  have h0 : w.faults w.clock = none := by simpa using hf 0 (by omega)
  have h1 := hf 1 (by omega)
  have h2 := hf 2 (by omega)
  have h3 := hf 3 (by omega)
  have h4 := hf 4 (by omega)
  have h5 := hf 5 (by omega)
  have h6 := hf 6 (by omega)
  have h7 := hf 7 (by omega)
  have hne : ¬ i = j := fun h => hij h.symm
  simp [Lnky, osStat, osLink, Copy, osOpen, osCreate, ioCopy, fileClose, World.tick,
    osSameFile, Except.toOption, Nat.add_assoc, h0, h1, h2, h3, h4, h5, h6, h7, hi, hj, hne]

/-- A successful match of `newFilenameRE` comes from a first split point. -/
theorem find_some_split {s : List Char} {m : List (List Char)}
    (h : newFilenameRE.FindStringSubmatch 3 s = some m) :
    ∃ stem u ds ext, s = stem ++ u ∧ (∀ ch ∈ stem, ch ≠ newline) ∧
      (∀ i, i < stem.length → parseTail (stem.drop i ++ u) = none) ∧
      parseTail u = some (ds, ext) := by
  unfold Regex.FindStringSubmatch at h
  rw [newFilenameRE_search, newFilenameRE_matchAt_zero] at h
  cases hrun : starLazyRun .anyNotNL
      (fun p s1 c1 => tailCont 0 p s1 (Function.update c1 1 (some (0, p)))) 0 s
      (fun _ => none) with
  | none => rw [hrun] at h; simp at h
  | some r =>
    obtain ⟨pre, t, hs, hcl, hfail, hok⟩ := starLazyRun_some _ _ _ _ _ _ hrun
    simp only [tailCont_eq] at hfail hok
    cases hp : parseTail t with
    | none => rw [hp] at hok; simp at hok
    | some pr =>
      refine ⟨pre, t, pr.1, pr.2, hs, ?_, ?_, hp⟩
      · intro ch hch
        have := hcl ch hch
        simpa [CharClass.test] using this
      · intro i hi
        have := hfail i hi
        cases hq : parseTail (List.drop i pre ++ t) with
        | none => rfl
        | some q => rw [hq] at this; simp at this

/-- A name for which there is a next name has no line feed. -/
theorem nextName_some_no_newline {name next : List Char} (h : nextName name = some next) :
    ∀ ch ∈ name, ch ≠ newline := by
  have hm : ∃ m, newFilenameRE.FindStringSubmatch 3 name = some m := by
    unfold nextName at h
    cases hf : newFilenameRE.FindStringSubmatch 3 name with
    | none => rw [hf] at h; simp at h
    | some m => exact ⟨m, rfl⟩
  obtain ⟨m, hm⟩ := hm
  obtain ⟨stem, u, ds, ext, hs, hstem, _, hu⟩ := find_some_split hm
  obtain ⟨hext, hshape⟩ := parseTail_sound hu
  have hextnl : ∀ ch ∈ ext, ch ≠ newline := by
    intro ch hch hnl
    subst hnl
    rcases validExt_mem hext hch with h1 | h1
    · revert h1; decide
    · revert h1; decide
  intro ch hch
  rw [hs] at hch
  rcases List.mem_append.mp hch with hch | hch
  · exact hstem ch hch
  · rcases hshape with ⟨_, hue⟩ | ⟨hds, hue⟩
    · rw [hue] at hch
      exact hextnl ch hch
    · rw [hue] at hch
      rcases List.mem_append.mp hch with hch | hch
      · intro hnl
        subst hnl
        simp only [suffixText, List.mem_cons, List.mem_append, List.mem_singleton] at hch
        rcases hch with h0 | h0 | h0 | h0
        · revert h0; decide
        · revert h0; decide
        · have := hds.1 _ h0
          revert this; decide
        · revert h0; decide
      · exact hextnl ch hch

/-- The loop of `NewFile` after a failed exclusive creation that is an "already
exists" error: it goes on with the next name when there is one, and otherwise
returns the error. -/
theorem NewFile_retry (fuel : Nat) (name : List Char) (w w1 : World) (err : Error)
    (hopen : osOpenFileExcl name w = (.error err, w1))
    (hexist : errorsIs w1.goos err ErrExist = true) :
    (∀ next, nextName name = some next → NewFile (fuel + 1) name w = NewFile fuel next w1) ∧
      (nextName name = none → NewFile (fuel + 1) name w = some ((none, some err), w1)) := by
  constructor
  · intro next hnext
    simp only [NewFile, hopen, hexist, if_true, hnext]
  · intro hnext
    simp only [NewFile, hopen, hexist, if_true, hnext]

/-- The exclusive creation of a path that exists fails with an "already exists"
error, when it is not made to fail otherwise. -/
theorem osOpenFileExcl_exists {name : List Char} {w : World} {i : Nat}
    (hf : w.faults w.clock = none) (hn : w.names name = some i) :
    osOpenFileExcl name w =
        (.error (.pathError "open" name (.errno (EEXIST w.goos))), w.tick (.openExcl name)) ∧
      errorsIs w.goos (.pathError "open" name (.errno (EEXIST w.goos))) ErrExist = true := by
  constructor
  · simp [osOpenFileExcl, hf, hn]
  · cases w.goos <;> simp [errorsIs, errnoIs, EEXIST, ErrExist]

theorem osOpenFileExcl_log (name : List Char) (w : World) :
    (osOpenFileExcl name w).2.log = w.log ++ [Call.openExcl name] := by
  unfold osOpenFileExcl
  split
  · rfl
  · split <;> rfl

/-! ## The claims -/

/-- C1: a file that `NewFile` returns with no error did not exist before the call and
was created by it (the path was absent, is present afterwards with empty content, and
the last system call is its exclusive creation); so a second successful `NewFile` of
the same name, with nothing deleted in between, returns a file with a different path. -/
theorem NewFile_exclusive (fuel : Nat) (name : List Char) (w w1 : World) (f : File)
    (h : NewFile fuel name w = some ((some f, none), w1)) :
    (w.names f.path = none ∧ w1.names f.path = some f.id ∧ w1.data f.id = [] ∧
        w1.log.getLast? = some (.openExcl f.path)) ∧
      ∀ (fuel2 : Nat) (g : File) (w2 : World),
        NewFile fuel2 name w1 = some ((some g, none), w2) → g.path ≠ f.path := by
  have h1 := NewFile_created fuel name w w1 f h
  refine ⟨h1, ?_⟩
  intro fuel2 g w2 h2 heq
  have h3 := NewFile_created fuel2 name w1 w2 g h2
  rw [heq, h1.2.1] at h3
  simp at h3

/-- C1, at a concrete input: with `a.txt` present, `NewFile` of `a.txt` creates
`a (1).txt`, which did not exist. -/
theorem NewFile_exclusive_witness :
    NewFile 3 "a.txt".toList worldA =
        some ((some ⟨"a (1).txt".toList, 1⟩, none),
          (osOpenFileExcl "a (1).txt".toList (osOpenFileExcl "a.txt".toList worldA).2).2) ∧
      worldA.names "a (1).txt".toList = none ∧
      (osOpenFileExcl "a (1).txt".toList (osOpenFileExcl "a.txt".toList worldA).2).2.names
        "a (1).txt".toList = some 1 :=
  ⟨rfl,
    (NewFile_exclusive 3 "a.txt".toList worldA
      (osOpenFileExcl "a (1).txt".toList (osOpenFileExcl "a.txt".toList worldA).2).2
      ⟨"a (1).txt".toList, 1⟩ rfl).1.1,
    (NewFile_exclusive 3 "a.txt".toList worldA
      (osOpenFileExcl "a (1).txt".toList (osOpenFileExcl "a.txt".toList worldA).2).2
      ⟨"a (1).txt".toList, 1⟩ rfl).1.2.1⟩

/-- C2 (amended): after an "already exists" failure the next name is the stem, the
incremented number in parentheses, and the extension. (0) The names a call of
`NewFile` tries are the name given and then, each time, the name `nextName` computes
from the one before. (1) Every name without a line
feed is parsed as a stem, an optional numeric suffix of one to four digits and an
optional extension, and retried as `stem (n+1)ext`, with `n = 0` when there is no
suffix. (2) For every stem without a line feed, `stem (n)ext` is retried as
`stem (n+1)ext`, in particular `stem (3).ext` as `stem (4).ext`. (3) For every stem
without a line feed that does not itself end in a numeric suffix, `stem.ext` is
retried as `stem (1).ext`. (4) When the exclusive creation of a name fails with an
"already exists" error and the name has a next name, `NewFile` goes on with that
name: its next system call is the exclusive creation of the next name, and the rest
of the call is the loop from there; when the name has no next name it returns the
error. (5) The exclusive creation of a path that exists fails in that way, unless it
is made to fail otherwise. (6) The names without a next name are those that contain
a line feed. -/
theorem nextName_increments :
    (∀ (fuel : Nat) (name : List Char) (w w1 : World) (r : Option File × Option Error),
      NewFile fuel name w = some (r, w1) →
        ∃ cs : List (List Char), w1.log = w.log ++ cs.map Call.openExcl ∧
          cs.head? = some name ∧ List.Chain' (fun a b => nextName a = some b) cs) ∧
    (∀ name : List Char, (∀ ch ∈ name, ch ≠ newline) →
      ∃ stem ds ext, validExt ext ∧ (ds = [] ∨ validDigits ds) ∧
        name = stem ++ (if ds = [] then [] else suffixText ds) ++ ext ∧
        nextName name =
          some (stem ++ " (".toList ++ Itoa ((if ds = [] then 0 else (Atoi ds).1) + 1) ++
            ")".toList ++ ext)) ∧
    (∀ stem : List Char, (∀ ch ∈ stem, ch ≠ newline) →
      ∀ ds ext, validDigits ds → validExt ext →
        nextName (stem ++ " (".toList ++ ds ++ ")".toList ++ ext) =
          some (stem ++ " (".toList ++ Itoa ((Atoi ds).1 + 1) ++ ")".toList ++ ext)) ∧
    (∀ stem : List Char, (∀ ch ∈ stem, ch ≠ newline) →
      ∀ ext, validExt ext →
        nextName (stem ++ " (3)".toList ++ ext) = some (stem ++ " (4)".toList ++ ext)) ∧
    (∀ stem : List Char, (∀ ch ∈ stem, ch ≠ newline) → noSuffix stem →
      ∀ w, (∀ c ∈ w, isWordChar c = true) →
        nextName (stem ++ '.' :: w) = some (stem ++ " (1)".toList ++ '.' :: w)) ∧
    (∀ (fuel : Nat) (name : List Char) (w w1 : World) (err : Error),
      osOpenFileExcl name w = (.error err, w1) → errorsIs w1.goos err ErrExist = true →
        (∀ next, nextName name = some next →
          NewFile (fuel + 1) name w = NewFile fuel next w1 ∧
            NewFile (fuel + 2) name w =
              (match osOpenFileExcl next w1 with
              | (.error err2, w2) =>
                if errorsIs w2.goos err2 ErrExist then
                  match nextName next with
                  | some name2 => NewFile fuel name2 w2
                  | none => some ((none, some err2), w2)
                else some ((none, some err2), w2)
              | (.ok f, w2) => some ((some f, none), w2)) ∧
            (osOpenFileExcl next w1).2.log =
              w.log ++ [Call.openExcl name, Call.openExcl next]) ∧
        (nextName name = none → NewFile (fuel + 1) name w = some ((none, some err), w1))) ∧
    (∀ (fuel : Nat) (name : List Char) (w : World) (i : Nat),
      w.faults w.clock = none → w.names name = some i →
        ∀ next, nextName name = some next →
          NewFile (fuel + 1) name w = NewFile fuel next (w.tick (.openExcl name))) ∧
    (∀ name : List Char, nextName name = none ↔ ∃ ch ∈ name, ch = newline) := by
  refine ⟨NewFile_candidates, ?_, ?_, ?_, ?_, ?_, ?_, ?_⟩
  rotate_left 4
  · intro fuel name w w1 err hopen hexist
    obtain ⟨hretry, hstop⟩ := NewFile_retry fuel name w w1 err hopen hexist
    refine ⟨?_, hstop⟩
    intro next hnext
    refine ⟨hretry next hnext, ?_, ?_⟩
    · rw [(NewFile_retry (fuel + 1) name w w1 err hopen hexist).1 next hnext]
      simp only [NewFile]
    · have hl1 : w1.log = w.log ++ [Call.openExcl name] := by
        have := osOpenFileExcl_log name w
        rw [hopen] at this
        exact this
      rw [osOpenFileExcl_log, hl1]
      simp
  · intro fuel name w i hf hn next hnext
    obtain ⟨hopen, hexist⟩ := osOpenFileExcl_exists hf hn
    exact (NewFile_retry fuel name w _ _ hopen hexist).1 next hnext
  · intro name
    constructor
    · intro hnone
      by_contra hcon
      have hall : ∀ ch ∈ name, ch ≠ newline := by
        intro ch hch hnl
        exact hcon ⟨ch, hch, hnl⟩
      obtain ⟨stem, u, ds, ext, hs, hu, hmin⟩ := exists_min_split name hall
      have hstem : ∀ ch ∈ stem, ch ≠ newline := fun ch hch => hall ch (by simp [hs, hch])
      have := (nextName_of_split hstem hmin hu).1
      rw [← hs, hnone] at this
      simp at this
    · rintro ⟨ch, hch, hnl⟩
      cases hn : nextName name with
      | none => rfl
      | some next => exact absurd hnl (nextName_some_no_newline hn ch hch)
  · intro name hname
    obtain ⟨stem, u, ds, ext, hs, hu, hmin⟩ := exists_min_split name hname
    have hstem : ∀ ch ∈ stem, ch ≠ newline := fun ch hch => hname ch (by simp [hs, hch])
    obtain ⟨hext, hshape⟩ := parseTail_sound hu
    have hnext := (nextName_of_split hstem hmin hu).1
    refine ⟨stem, ds, ext, hext, ?_, ?_, ?_⟩
    · rcases hshape with ⟨h, _⟩ | ⟨h, _⟩
      · exact Or.inl h
      · exact Or.inr h
    · rcases hshape with ⟨h, hue⟩ | ⟨h, hue⟩
      · simp [hs, h, hue]
      · have hne : ds ≠ [] := by
          rintro rfl
          have := h.2.1
          simp at this
        simp [hs, hne, hue]
    · rw [hs, hnext]
      simp [suffixText]
  · intro stem hstem ds ext hds hext
    have := (nextName_suffix hstem hds hext).1
    simpa [suffixText] using this
  · intro stem hstem ext hext
    have hds : validDigits ['3'] := by decide
    have := (nextName_suffix hstem hds hext).1
    have h4 : Itoa ((Atoi ['3']).1 + 1) = ['4'] := by decide
    rw [h4] at this
    simpa [suffixText] using this
  · intro stem hstem hns w hw
    have := (nextName_plain hstem hns hw).1
    simpa [suffixText] using this

/-- C2 (amended), at concrete inputs: `dir/a (3).tar.gz` has the stem `dir/a (3).tar`
and is retried as `dir/a (3).tar (1).gz`; `a (41).x` is retried as `a (42).x`; and with
`a.txt` present, `NewFile` of `a.txt` goes on with `a (1).txt`, which it creates. -/
theorem nextName_increments_witness :
    nextName ("dir/a (3).tar".toList ++ '.' :: "gz".toList) =
        some ("dir/a (3).tar".toList ++ " (1)".toList ++ '.' :: "gz".toList) ∧
      nextName ("a".toList ++ " (".toList ++ "41".toList ++ ")".toList ++ ".x".toList) =
        some ("a".toList ++ " (".toList ++ "42".toList ++ ")".toList ++ ".x".toList) ∧
      NewFile (2 + 1) "a.txt".toList worldA =
        NewFile 2 "a (1).txt".toList (worldA.tick (.openExcl "a.txt".toList)) ∧
      (NewFile 3 "a.txt".toList worldA).map Prod.fst =
        some (some ⟨"a (1).txt".toList, 1⟩, none) :=
  ⟨nextName_increments.2.2.2.2.1 "dir/a (3).tar".toList (by decide)
      (by
        intro t ds hds heq
        have hlast := congrArg List.getLast? heq
        have e : t ++ suffixText ds = (t ++ ' ' :: '(' :: ds) ++ [')'] := by
          simp [suffixText]
        rw [e, List.getLast?_concat] at hlast
        revert hlast
        decide)
      "gz".toList (by decide),
    nextName_increments.2.2.1 "a".toList (by decide) "41".toList ".x".toList (by decide)
      (by decide),
    nextName_increments.2.2.2.2.2.2.1 2 "a.txt".toList worldA 0 rfl rfl "a (1).txt".toList
      (by decide),
    by decide⟩

/-- C2, as stated, fails for a stem that itself ends in a numeric suffix: with the
stem `a (3)` and the extension `.txt`, the name `a (3).txt` is retried as `a (4).txt`
and not as `a (3) (1).txt`. -/
theorem nextName_stem_counterexample :
    (∀ ch ∈ "a (3)".toList, ch ≠ newline) ∧ validExt ".txt".toList ∧
      nextName ("a (3)".toList ++ ".txt".toList) = some "a (4).txt".toList ∧
      nextName ("a (3)".toList ++ ".txt".toList) ≠
        some ("a (3)".toList ++ " (1)".toList ++ ".txt".toList) := by
  decide

/-- One step of a run of collisions: below 9999 the disambiguator of the next
candidate is greater by one. -/
theorem disambiguator_step (prev next : List Char) (h : nextName prev = some next)
    (hlt : nameDisambiguator prev < 9999) :
    nameDisambiguator next = nameDisambiguator prev + 1 ∧
      nameDisambiguator prev < nameDisambiguator next := by
  have hm : ∃ m, newFilenameRE.FindStringSubmatch 3 prev = some m := by
    unfold nextName at h
    cases hf : newFilenameRE.FindStringSubmatch 3 prev with
    | none => rw [hf] at h; simp at h
    | some m => exact ⟨m, rfl⟩
  obtain ⟨m, hm⟩ := hm
  obtain ⟨stem, u, ds, ext, hs, hstem, hmin, hu⟩ := find_some_split hm
  obtain ⟨hnext, hdis⟩ := nextName_of_split hstem hmin hu
  obtain ⟨hext, _⟩ := parseTail_sound hu
  rw [← hs] at hnext hdis
  rw [hnext] at h
  simp only [Option.some.injEq] at h
  rw [hdis] at hlt ⊢
  have hle : (if ds = [] then 0 else (Atoi ds).1) + 1 ≤ 9999 := by omega
  have hnew := (nextName_suffix hstem (Itoa_valid hle) hext).2
  rw [h, Atoi_Itoa hle] at hnew
  rw [hnew]
  omega

/-- C10 (amended): within one call of `NewFile` the names tried are a chain, each
computed from the one before after an "already exists" failure; and while the
disambiguator parsed from a candidate is below 9999, the disambiguator parsed from the
candidate tried after it is greater by one, hence strictly greater (a name without a
suffix counting as 0). -/
theorem NewFile_disambiguator (fuel : Nat) (name : List Char) (w w1 : World)
    (r : Option File × Option Error) (h : NewFile fuel name w = some (r, w1)) :
    ∃ cs : List (List Char), w1.log = w.log ++ cs.map Call.openExcl ∧
      cs.head? = some name ∧
      List.Chain' (fun a b => nextName a = some b ∧
        (nameDisambiguator a < 9999 →
          nameDisambiguator b = nameDisambiguator a + 1 ∧
            nameDisambiguator a < nameDisambiguator b)) cs := by
  obtain ⟨cs, hlog, hhead, hchain⟩ := NewFile_candidates fuel name w w1 r h
  exact ⟨cs, hlog, hhead,
    hchain.imp fun a b hab => ⟨hab, fun hlt => disambiguator_step a b hab hlt⟩⟩

/-- C10 (amended), at a concrete input: with `a.txt` and `a (1).txt` present, `NewFile`
of `a.txt` tries `a.txt`, `a (1).txt` and `a (2).txt`, with the disambiguators
0, 1 and 2. -/
theorem NewFile_disambiguator_witness :
    (NewFile 3 "a.txt".toList (osOpenFileExcl "a (1).txt".toList worldA).2).isSome = true ∧
      (List.map nameDisambiguator
        ["a.txt".toList, "a (1).txt".toList, "a (2).txt".toList] = [0, 1, 2]) ∧
      ∃ cs : List (List Char),
        cs.head? = some "a.txt".toList ∧
        List.Chain' (fun a b => nextName a = some b ∧
          (nameDisambiguator a < 9999 →
            nameDisambiguator b = nameDisambiguator a + 1 ∧
              nameDisambiguator a < nameDisambiguator b)) cs :=
  ⟨by decide, by decide,
    match NewFile_disambiguator 3 "a.txt".toList (osOpenFileExcl "a (1).txt".toList worldA).2
      ((NewFile 3 "a.txt".toList (osOpenFileExcl "a (1).txt".toList worldA).2).get
        (by decide)).2
      ((NewFile 3 "a.txt".toList (osOpenFileExcl "a (1).txt".toList worldA).2).get
        (by decide)).1 (by simp) with
    | ⟨cs, _, hhead, hchain⟩ => ⟨cs, hhead, hchain⟩⟩

/-- C10, as stated, fails at 9999: the candidate after `a (9999)` is `a (10000)`, whose
five digits the pattern `\d{1,4}` does not take for a suffix, so its disambiguator is
0 and not greater than 9999; the candidate after that is `a (10000) (1)`. -/
theorem disambiguator_counterexample :
    nextName "a (9999)".toList = some "a (10000)".toList ∧
      nameDisambiguator "a (9999)".toList = 9999 ∧
      nameDisambiguator "a (10000)".toList = 0 ∧
      nextName "a (10000)".toList = some "a (10000) (1)".toList := by
  decide

/-- C4: the argument list that `runDNGConverter` passes to the converter is
`opts ++ ["-d", Dir(output), "-o", Base(output), input]` with the options of the
specification; the converter is started with it whenever the removal of the output
and the acquisition succeed, and with nothing else; the settings
`{DNG, Lossy, Embed, Preview: "full"}` give `-full -lossy -e` before `-d`. -/
theorem runDNGConverter_args (env : DngEnv) (input output : String) (side : Int)
    (exp : Option exportSettings) :
    converterArgs env input output side exp =
        specOpts side exp ++ ["-d", env.Dir output, "-o", env.Base output, input] ∧
      (∀ name args, Event.start name args ∈ (runDNGConverter env input output side exp).2 →
        name = env.DngConverter ∧
          args = specOpts side exp ++ ["-d", env.Dir output, "-o", env.Base output, input]) ∧
      (env.removeAll output = none → env.acquireErr = none →
        Event.start env.DngConverter
            (specOpts side exp ++ ["-d", env.Dir output, "-o", env.Base output, input]) ∈
          (runDNGConverter env input output side exp).2) ∧
      converterArgs env input output side (some ⟨true, "full", true, true⟩) =
        ["-full", "-lossy", "-e", "-d", env.Dir output, "-o", env.Base output, input] := by
  have hargs : converterArgs env input output side exp =
      specOpts side exp ++ ["-d", env.Dir output, "-o", env.Base output, input] := by
    unfold converterArgs specOpts
    cases exp with
    | none => by_cases hs : side > 0 <;> simp [hs]
    | some e =>
      by_cases hd : e.DNG = true
      · by_cases hp : e.Preview = "" <;> by_cases hl : e.Lossy = true <;>
          by_cases he : e.Embed = true <;> simp [hd, hp, hl, he]
      · by_cases hs : side > 0 <;> simp [hd, hs]
  refine ⟨hargs, ?_, ?_, ?_⟩
  · intro name args hmem
    unfold runDNGConverter at hmem
    rw [hargs] at hmem
    cases hr : env.removeAll output with
    | some e => simp [hr] at hmem
    | none =>
      cases ha : env.acquireErr with
      | some e => simp [hr, ha] at hmem
      | none =>
        simp only [hr, ha] at hmem
        split at hmem <;> simpa using hmem
  · intro hr ha
    unfold runDNGConverter
    rw [hargs]
    simp only [hr, ha]
    split <;> simp
  · simp [converterArgs]

/-- C4, at a concrete input: a call without export settings and a limit of 2560. -/
theorem runDNGConverter_args_witness :
    Event.start "dngconverter"
        ["-lossy", "-side", "2560", "-p2", "-d", "/out", "-o", "photo.dng", "in.raw"] ∈
      (runDNGConverter dngEnv "in.raw" "/out/photo.dng" 2560 none).2 :=
  (runDNGConverter_args dngEnv "in.raw" "/out/photo.dng" 2560 none).2.2.1 rfl rfl

theorem selectMode_eq (form : Form) :
    selectMode form =
      if form.has "meta" then .Meta
      else if form.has "save" then .Save
      else if form.has "export" then .Export
      else if form.has "preview" then .Preview
      else if form.has "settings" then .Settings
      else if form.has "wb" then .WhiteBalance
      else .Default := by
  unfold selectMode modeFlags
  simp only [List.find?]
  cases form.has "meta" <;> cases form.has "save" <;> cases form.has "export" <;>
    cases form.has "preview" <;> cases form.has "settings" <;> cases form.has "wb" <;> rfl

theorem Form.has_congr {f1 f2 : Form} (h : f1.map Prod.fst = f2.map Prod.fst) (key : String) :
    Form.has f1 key = Form.has f2 key := by
  have e : ∀ f : Form, Form.has f key = (f.map Prod.fst).any fun k => k == key := by
    intro f
    induction f with
    | nil => rfl
    | cons kv t ih =>
      simp only [Form.has, List.any_cons, List.map_cons] at ih ⊢
      rw [ih]
  rw [e f1, e f2, h]

/-- C6: for a request whose form parses, `photoHandler` runs the action of exactly one
mode, the one the specification selects: the first of the keys meta, save, export,
preview, settings, wb that is present in the form, and `Default` when none is. The
selection depends only on which keys are present, not on their values. -/
theorem photoHandler_mode (d : Deps) (r : Request) (c : Ctx) (hparse : r.parseFormErr = none) :
    photoHandler d r c =
        runMode d r (d.fromURLPath r.URLPath (d.getPathPrefix r)) (d.getPathPrefix r) c
          (selectMode r.Form) ∧
      (selectMode r.Form = .Default ↔
        ∀ key ∈ ["meta", "save", "export", "preview", "settings", "wb"],
          r.Form.has key = false) ∧
      (∀ key m, (key, m) ∈ modeFlags → selectMode r.Form = m → r.Form.has key = true) ∧
      (∀ form2 : Form, r.Form.map Prod.fst = form2.map Prod.fst →
        selectMode r.Form = selectMode form2) := by
  refine ⟨?_, ?_, ?_, ?_⟩
  · unfold photoHandler
    rw [hparse, selectMode_eq]
    simp only
    cases r.Form.has "meta" <;> cases r.Form.has "save" <;> cases r.Form.has "export" <;>
      cases r.Form.has "preview" <;> cases r.Form.has "settings" <;>
      cases r.Form.has "wb" <;> rfl
  · rw [selectMode_eq]
    simp only [List.forall_mem_cons, List.not_mem_nil, false_implies, implies_true, and_true]
    cases r.Form.has "meta" <;> cases r.Form.has "save" <;> cases r.Form.has "export" <;>
      cases r.Form.has "preview" <;> cases r.Form.has "settings" <;>
      cases r.Form.has "wb" <;> simp
  · intro key m hmem
    rw [selectMode_eq]
    simp only [modeFlags, List.mem_cons, Prod.mk.injEq, List.mem_singleton, List.not_mem_nil,
      or_false] at hmem
    rcases hmem with ⟨rfl, rfl⟩ | ⟨rfl, rfl⟩ | ⟨rfl, rfl⟩ | ⟨rfl, rfl⟩ | ⟨rfl, rfl⟩ | ⟨rfl, rfl⟩ <;>
      cases r.Form.has "meta" <;> cases r.Form.has "save" <;> cases r.Form.has "export" <;>
      cases r.Form.has "preview" <;> cases r.Form.has "settings" <;>
      cases r.Form.has "wb" <;> simp
  · intro form2 h
    rw [selectMode_eq, selectMode_eq]
    simp only [Form.has_congr h]

/-- C6, at a concrete input: with both `save` and `export` present, whatever their
values, the handler runs the save action alone. -/
theorem photoHandler_mode_witness :
    photoHandler (depsLocal ("", none) (.ok [])) (requestOf "/photo.raw"
        [("export", ["0"]), ("save", [])]) ctx0 =
      saveCase (depsLocal ("", none) (.ok [])) (requestOf "/photo.raw"
        [("export", ["0"]), ("save", [])]) "/photo.raw" ctx0 :=
  (photoHandler_mode (depsLocal ("", none) (.ok [])) (requestOf "/photo.raw"
    [("export", ["0"]), ("save", [])]) ctx0 rfl).1

theorem getHeader_set_same (w : ResponseWriter) (k v : String) :
    (w.setHeader k v).getHeader k = some v := by
  simp [ResponseWriter.setHeader, ResponseWriter.getHeader]

theorem getHeader_set_other (w : ResponseWriter) (k k1 v : String) (h : k1 ≠ k) :
    (w.setHeader k v).getHeader k1 = w.getHeader k1 := by
  have hk : (k == k1) = false := by
    simp only [beq_eq_false_iff_ne, ne_eq]
    exact fun e => h e.symm
  simp only [ResponseWriter.setHeader, ResponseWriter.getHeader, List.find?_cons, hk]
  congr 1
  induction w.header with
  | nil => rfl
  | cons kv t ih =>
    obtain ⟨a, b⟩ := kv
    by_cases h1 : a = k
    · subst h1
      have hne : (a != a) = false := by simp
      simp only [List.filter_cons, hne, Bool.false_eq_true, if_false, List.find?_cons, hk, ih]
    · have hne : (a != k) = true := by simpa using h1
      simp only [List.filter_cons, hne, if_true, List.find?_cons, ih]

theorem photoHandler_default_eq (d : Deps) (r : Request) (c : Ctx)
    (hparse : r.parseFormErr = none)
    (hmode : ∀ key ∈ ["meta", "save", "export", "preview", "settings", "wb"],
      r.Form.has key = false) :
    photoHandler d r c =
      defaultCase d r (d.fromURLPath r.URLPath (d.getPathPrefix r)) (d.getPathPrefix r) c := by
  simp only [List.forall_mem_cons, List.not_mem_nil, false_implies, implies_true,
    and_true] at hmode
  obtain ⟨h1, h2, h3, h4, h5, h6⟩ := hmode
  unfold photoHandler
  rw [hparse]
  simp only [h1, h2, h3, h4, h5, h6, Bool.false_eq_true, if_false]

/-- C7: in Default mode (no mode flag present) `photoHandler` renders the default photo
view, with the headers `Cache-Control: max-age=300` and
`Content-Type: text/html; charset=utf-8`, if and only if `os.Stat` of the resolved path
succeeds; when it fails the result carries the stat error, the response (headers and
body) is untouched and the template is not executed. -/
theorem photoHandler_default (d : Deps) (r : Request) (c : Ctx)
    (hparse : r.parseFormErr = none)
    (hmode : ∀ key ∈ ["meta", "save", "export", "preview", "settings", "wb"],
      r.Form.has key = false) :
    (d.stat (d.fromURLPath r.URLPath (d.getPathPrefix r)) = none →
      (photoHandler d r c).2.w.getHeader "Cache-Control" = some "max-age=300" ∧
        (photoHandler d r c).2.w.getHeader "Content-Type" = some "text/html; charset=utf-8" ∧
        (photoHandler d r c).2.effects =
          c.effects ++ [.stat (d.fromURLPath r.URLPath (d.getPathPrefix r)),
            .executeTemplate "photo.gohtml"
              (d.toUsrPath (d.fromURLPath r.URLPath (d.getPathPrefix r)) (d.getPathPrefix r))
              (d.Base (d.fromURLPath r.URLPath (d.getPathPrefix r)))
              (d.toURLPath (d.fromURLPath r.URLPath (d.getPathPrefix r)) (d.getPathPrefix r))] ∧
        (photoHandler d r c).2.w.body =
          c.w.body ++ (d.executeTemplate "photo.gohtml"
              (d.toUsrPath (d.fromURLPath r.URLPath (d.getPathPrefix r)) (d.getPathPrefix r))
              (d.Base (d.fromURLPath r.URLPath (d.getPathPrefix r)))
              (d.toURLPath (d.fromURLPath r.URLPath (d.getPathPrefix r)) (d.getPathPrefix r))).1 ∧
        (photoHandler d r c).1 =
          { Error := (d.executeTemplate "photo.gohtml"
              (d.toUsrPath (d.fromURLPath r.URLPath (d.getPathPrefix r)) (d.getPathPrefix r))
              (d.Base (d.fromURLPath r.URLPath (d.getPathPrefix r)))
              (d.toURLPath (d.fromURLPath r.URLPath (d.getPathPrefix r)) (d.getPathPrefix r))).2 }) ∧
      (∀ err, d.stat (d.fromURLPath r.URLPath (d.getPathPrefix r)) = some err →
        photoHandler d r c =
          ({ Error := some err },
            { w := c.w,
              effects := c.effects ++ [.stat (d.fromURLPath r.URLPath (d.getPathPrefix r))] })) ∧
      ((∃ name title base url, Effect.executeTemplate name title base url ∈
          (photoHandler d r c).2.effects.drop c.effects.length) ↔
        d.stat (d.fromURLPath r.URLPath (d.getPathPrefix r)) = none) := by
  rw [photoHandler_default_eq d r c hparse hmode]
  refine ⟨?_, ?_, ?_⟩
  · intro hstat
    simp only [defaultCase, hstat, Ctx.did]
    refine ⟨?_, ?_, ?_, ?_, trivial⟩
    · simp only [ResponseWriter.write]
      have := getHeader_set_other (c.w.setHeader "Cache-Control" "max-age=300") "Content-Type"
        "Cache-Control" "text/html; charset=utf-8" (by decide)
      rw [getHeader_set_same] at this
      exact this
    · simp only [ResponseWriter.write]
      exact getHeader_set_same _ _ _
    · simp
    · simp [ResponseWriter.write, ResponseWriter.setHeader]
  · intro err hstat
    simp only [defaultCase, hstat, Ctx.did]
  · cases hstat : d.stat (d.fromURLPath r.URLPath (d.getPathPrefix r)) with
    | none => simp [defaultCase, hstat, Ctx.did]
    | some err => simp [defaultCase, hstat, Ctx.did]

/-- C7, at concrete inputs: the existing `/photo.raw` is rendered with the two
headers; for the missing `/none.raw` the result is the stat error and the response is
untouched. -/
theorem photoHandler_default_witness :
    ((photoHandler (depsLocal ("", none) (.ok [])) (requestOf "/photo.raw" []) ctx0).2.w.getHeader
        "Cache-Control" = some "max-age=300") ∧
      photoHandler (depsLocal ("", none) (.ok [])) (requestOf "/none.raw" []) ctx0 =
        ({ Error := some (.errno 2) }, { w := ⟨[], []⟩, effects := [.stat "/none.raw"] }) :=
  ⟨((photoHandler_default (depsLocal ("", none) (.ok [])) (requestOf "/photo.raw" []) ctx0 rfl
      (by decide)).1 rfl).1,
    (photoHandler_default (depsLocal ("", none) (.ok [])) (requestOf "/none.raw" []) ctx0 rfl
      (by decide)).2.1 (.errno 2) rfl⟩

theorem photoHandler_export_eq (d : Deps) (r : Request) (c : Ctx)
    (hparse : r.parseFormErr = none) (hmeta : r.Form.has "meta" = false)
    (hsave : r.Form.has "save" = false) (hexport : r.Form.has "export" = true) :
    photoHandler d r c = exportCase d r (resolvedPath d r) c := by
  unfold photoHandler
  rw [hparse]
  simp only [hmeta, hsave, hexport, Bool.false_eq_true, if_false, if_true, resolvedPath]

/-- C8 (amended): in Export mode for a localhost request whose settings decode, the
save dialog decides as follows. An empty path with the cancellation error: status 204,
no export produced, nothing written. An empty path and no error: status 500. An empty
path and another error: that error. A non-empty path replaces the candidate path:
the export is produced, and when it succeeds its bytes are written to the chosen path,
with status 204 when the write succeeds; an error of the export or of the write is
returned instead. -/
theorem photoHandler_export_local (d : Deps) (r : Request) (c : Ctx) (xmp : xmpSettings)
    (exp : exportSettings) (hparse : r.parseFormErr = none)
    (hmeta : r.Form.has "meta" = false) (hsave : r.Form.has "save" = false)
    (hexport : r.Form.has "export" = true) (hlocal : d.isLocalhost r = true)
    (hxmp : d.decodeXmp r.Form = .ok xmp) (hexp : d.decodeExp r.Form = .ok exp) :
    (∀ err, d.selectFileSave r (candidatePath d r exp) = ("", err) →
        errorsIsOpt d.goos err ErrCanceled = true →
        photoHandler d r c =
          ({ Status := StatusNoContent }, c.did (.selectFileSave (candidatePath d r exp)))) ∧
      (d.selectFileSave r (candidatePath d r exp) = ("", none) →
        photoHandler d r c =
          ({ Status := StatusInternalServerError },
            c.did (.selectFileSave (candidatePath d r exp)))) ∧
      (∀ e, d.selectFileSave r (candidatePath d r exp) = ("", some e) →
        errorsIs d.goos e ErrCanceled = false →
        photoHandler d r c =
          ({ Error := some e }, c.did (.selectFileSave (candidatePath d r exp)))) ∧
      (∀ res err, d.selectFileSave r (candidatePath d r exp) = (res, err) → res ≠ "" →
        (∀ out, d.exportEdit (resolvedPath d r) (stamped d r xmp) exp = .ok out →
          d.writeFile res out = none →
          photoHandler d r c =
            ({ Status := StatusNoContent },
              ((c.did (.selectFileSave (candidatePath d r exp))).did
                (.exportEdit (resolvedPath d r) (stamped d r xmp) exp)).did
                (.writeFile res out))) ∧
        (∀ out e, d.exportEdit (resolvedPath d r) (stamped d r xmp) exp = .ok out →
          d.writeFile res out = some e →
          photoHandler d r c =
            ({ Error := some e },
              ((c.did (.selectFileSave (candidatePath d r exp))).did
                (.exportEdit (resolvedPath d r) (stamped d r xmp) exp)).did
                (.writeFile res out))) ∧
        (∀ e, d.exportEdit (resolvedPath d r) (stamped d r xmp) exp = .error e →
          photoHandler d r c =
            ({ Error := some e },
              (c.did (.selectFileSave (candidatePath d r exp))).did
                (.exportEdit (resolvedPath d r) (stamped d r xmp) exp)))) := by
  rw [photoHandler_export_eq d r c hparse hmeta hsave hexport]
  unfold exportCase
  simp only [hxmp, hexp, hlocal, if_true]
  refine ⟨?_, ?_, ?_, ?_⟩
  · intro err hd hc
    simp only [candidatePath] at hd
    simp [hd, hc, candidatePath]
  · intro hd
    simp only [candidatePath] at hd
    simp [hd, errorsIsOpt, candidatePath]
  · intro e hd hc
    simp only [candidatePath] at hd
    simp [hd, errorsIsOpt, hc, candidatePath]
  · intro res err hd hres
    simp only [candidatePath] at hd
    simp only [hd, hres, ne_eq, not_false_eq_true, if_true, exportWrite, hlocal, candidatePath,
      stamped]
    refine ⟨?_, ?_, ?_⟩
    · intro out he hw
      simp [he, hw]
    · intro out e he hw
      simp [he, hw]
    · intro e he
      simp [he]

/-- C8 (amended), at concrete inputs: a cancelled dialog gives 204 and only the
dialog was called; a chosen path `/out.jpg` gets the exported bytes. -/
theorem photoHandler_export_local_witness :
    photoHandler (depsLocal ("", some ErrCanceled) (.ok [7])) (requestOf "/photo.raw"
        [("export", [])]) ctx0 =
        ({ Status := 204 }, { w := ⟨[], []⟩, effects := [.selectFileSave "/photo.raw.jpg"] }) ∧
      photoHandler (depsLocal ("/out.jpg", none) (.ok [7])) (requestOf "/photo.raw"
        [("export", [])]) ctx0 =
        ({ Status := 204 },
          { w := ⟨[], []⟩,
            effects := [.selectFileSave "/photo.raw.jpg",
              .exportEdit "/photo.raw" ⟨"/photo.raw", []⟩ ⟨false, "", false, false⟩,
              .writeFile "/out.jpg" [7]] }) :=
  ⟨(photoHandler_export_local (depsLocal ("", some ErrCanceled) (.ok [7]))
      (requestOf "/photo.raw" [("export", [])]) ctx0 ⟨"", []⟩ ⟨false, "", false, false⟩
      rfl rfl rfl rfl rfl rfl rfl).1 (some ErrCanceled) rfl rfl,
    ((photoHandler_export_local (depsLocal ("/out.jpg", none) (.ok [7]))
      (requestOf "/photo.raw" [("export", [])]) ctx0 ⟨"", []⟩ ⟨false, "", false, false⟩
      rfl rfl rfl rfl rfl rfl rfl).2.2.2 "/out.jpg" none rfl (by decide)).1 [7] rfl rfl⟩

/-- C8, as stated, fails when the export itself fails: the dialog returns the
non-empty path `/out.jpg`, `exportEdit` returns an error, and the handler returns that
error with no status 204 and without writing anything. -/
theorem photoHandler_export_counterexample :
    photoHandler (depsLocal ("/out.jpg", none) (.error (.sentinel "export failed")))
        (requestOf "/photo.raw" [("export", [])]) ctx0 =
        ({ Status := 0, Error := some (.sentinel "export failed") },
          { w := ⟨[], []⟩,
            effects := [.selectFileSave "/photo.raw.jpg",
              .exportEdit "/photo.raw" ⟨"/photo.raw", []⟩ ⟨false, "", false, false⟩] }) ∧
      (photoHandler (depsLocal ("/out.jpg", none) (.error (.sentinel "export failed")))
        (requestOf "/photo.raw" [("export", [])]) ctx0).1.Status ≠ StatusNoContent := by
  decide

theorem osRemove_spec (n : List Char) (w : World) :
    (osRemove n w).2.data = w.data ∧ (∀ p, p ≠ n → (osRemove n w).2.names p = w.names p) ∧
      ((osRemove n w).1 = none → (osRemove n w).2.names n = none) := by
  unfold osRemove
  split
  · simp [World.tick]
  · split
    · simp [World.tick]
    · refine ⟨rfl, ?_, ?_⟩
      · intro p hp
        simp [World.tick, Function.update, hp]
      · intro _
        simp [World.tick]

theorem worldA_WF : worldA.WF := by
  intro p i h
  simp only [worldA] at h ⊢
  split at h
  · simp only [Option.some.injEq] at h
    omega
  · simp at h

/-- C5 (amended): `Move` falls back to copy-then-delete exactly when the rename fails
with a link error whose cause is errno 0x12 (0x11 on Windows); every other outcome of
the rename is returned with nothing else done. In the fallback, for a source and a
destination that are not already the same file: when the copy fails, `Move` returns
the copy error, makes no removal and the source keeps its name and content; when the
copy succeeds the destination holds the original content of the source and `Move`
then removes the source, returning nil when the removal succeeds (the source is then
gone) or reports "does not exist", and otherwise the error of the removal. -/
theorem Move_spec (src dst : List Char) (w : World) :
    (isNotSameDevice w.goos (osRename src dst w).1 = true ↔
        ∃ e, (osRename src dst w).1 = some e ∧
          asLinkError e = some (.errno (if w.goos = .windows then 0x11 else 0x12))) ∧
      (isNotSameDevice w.goos (osRename src dst w).1 = false →
        Move src dst w = osRename src dst w) ∧
      (isNotSameDevice w.goos (osRename src dst w).1 = true →
        Move src dst w =
          match Copy src dst (w.tick (.rename src dst)) with
          | (some err, w2) => (some err, w2)
          | (none, w2) =>
            (if errorsIsOpt w.goos (osRemove src w2).1 ErrNotExist then none
              else (osRemove src w2).1, (osRemove src w2).2)) ∧
      (w.WF → w.names src ≠ w.names dst →
        isNotSameDevice w.goos (osRename src dst w).1 = true →
        ∀ r w2, Copy src dst (osRename src dst w).2 = (r, w2) →
          (∀ e, r = some e →
            Move src dst w = (some e, w2) ∧ w2.names src = w.names src ∧
              ∀ i, w.names src = some i → w2.data i = w.data i) ∧
          (r = none →
            ∃ i j, w.names src = some i ∧ w2.names dst = some j ∧ w2.data j = w.data i ∧
              (Move src dst w).2.names dst = some j ∧ (Move src dst w).2.data j = w.data i ∧
              Move src dst w =
                (if errorsIsOpt w.goos (osRemove src w2).1 ErrNotExist then none
                  else (osRemove src w2).1, (osRemove src w2).2) ∧
              ((osRemove src w2).1 = none →
                (Move src dst w).1 = none ∧ (Move src dst w).2.names src = none) ∧
              (errorsIsOpt w.goos (osRemove src w2).1 ErrNotExist = true →
                (Move src dst w).1 = none))) := by
  refine ⟨isNotSameDevice_iff _ _, Move_of_same_device, Move_fallback, ?_⟩
  intro hwf hne hdev r w2 hcopy
  have hmove := Move_fallback hdev
  rw [osRename_notSameDevice hdev] at hcopy
  rw [hcopy] at hmove
  have hwf1 : (w.tick (.rename src dst)).WF := hwf
  have hne1 : (w.tick (.rename src dst)).names src ≠ (w.tick (.rename src dst)).names dst := hne
  obtain ⟨hsrc, hdata, hok⟩ := Copy_spec hwf1 hne1 hcopy
  constructor
  · intro e he
    subst he
    exact ⟨hmove, hsrc, hdata⟩
  · intro hr
    subst hr
    obtain ⟨i, j, hi, hj, hij, hdj⟩ := hok rfl
    have hi2 : w2.names src = some i := by rw [hsrc]; exact hi
    have hsd : dst ≠ src := by
      rintro rfl
      rw [hi2] at hj
      simp only [Option.some.injEq] at hj
      exact hij hj
    obtain ⟨hrd, hrn, hrs⟩ := osRemove_spec src w2
    simp only at hmove
    refine ⟨i, j, hi, hj, hdj, ?_, ?_, hmove, ?_, ?_⟩
    · rw [hmove]
      simp only
      rw [hrn dst hsd, hj]
    · rw [hmove]
      simp only
      rw [hrd, hdj]
      rfl
    · intro hnone
      rw [hmove]
      simp only [hnone, errorsIsOpt, Bool.false_eq_true, if_false, true_and]
      exact hrs hnone
    · intro hne2
      rw [hmove]
      simp only [hne2, if_true]

/-- Why `Move_spec` asks for a source and a destination that are different files: when
both paths name one file and the rename reports another device, the copy truncates
that file before reading it, so the destination ends up empty. -/
theorem Move_same_file_example :
    (Move "/m1/a".toList "/m2/a".toList worldTwoMounts).1 = none ∧
      (Move "/m1/a".toList "/m2/a".toList worldTwoMounts).2.names "/m2/a".toList = some 0 ∧
      (Move "/m1/a".toList "/m2/a".toList worldTwoMounts).2.data 0 = [] := by
  decide

/-- C5 (amended), at a concrete input: across a device boundary `a.txt` is moved to
`b.txt` by copying, `b.txt` then holds the three bytes and `a.txt` is gone. -/
theorem Move_spec_witness :
    (Move "a.txt".toList "b.txt".toList worldXdev).1 = none ∧
      (Move "a.txt".toList "b.txt".toList worldXdev).2.names "a.txt".toList = none ∧
      ∃ i j, worldXdev.names "a.txt".toList = some i ∧
        (Copy "a.txt".toList "b.txt".toList
          (osRename "a.txt".toList "b.txt".toList worldXdev).2).2.names "b.txt".toList
            = some j ∧
        (Move "a.txt".toList "b.txt".toList worldXdev).2.data j = worldXdev.data i :=
  have h := ((Move_spec "a.txt".toList "b.txt".toList worldXdev).2.2.2 worldA_WF (by decide)
    rfl none _ rfl).2 rfl
  ⟨rfl, rfl, by
    obtain ⟨i, j, h1, h2, _, _, h5, _⟩ := h
    exact ⟨i, j, h1, h2, h5⟩⟩

/-- C5, as stated, fails when the removal of the source is refused: across a device
boundary the copy of `a.txt` to `b.txt` succeeds, the removal of `a.txt` fails with
"permission denied", and `Move` returns that error while `a.txt` is still there. -/
theorem Move_counterexample :
    (Copy "a.txt".toList "b.txt".toList
        (osRename "a.txt".toList "b.txt".toList worldXdevDenied).2).1 = none ∧
      (Move "a.txt".toList "b.txt".toList worldXdevDenied).1 =
        some (.pathError "remove" "a.txt".toList (.errno 13)) ∧
      (Move "a.txt".toList "b.txt".toList worldXdevDenied).2.names "a.txt".toList = some 0 ∧
      (Move "a.txt".toList "b.txt".toList worldXdevDenied).2.names "b.txt".toList = some 1 ∧
      (Move "a.txt".toList "b.txt".toList worldXdevDenied).2.data 1 = [1, 2, 3] := by
  decide

/-- C9 (amended): whenever both `Stat` calls report the same file, `Lnky` returns
success having made no other call, and nothing changes. After a first successful
`Lnky(src, dst)` the destination is either the same file as the source, and then a
second call whose two `Stat` calls succeed returns no error, links and copies nothing
and changes nothing; or a separate file with the content of the source (the first
call fell back to `Copy`), and then a second call returns no error when none of its
system calls is made to fail, and a second call that returns no error has created
and copied the destination once more, leaving it with the same content. -/
theorem Lnky_idempotent (src dst : List Char) :
    (∀ (v v1 v2 : World) (i : Nat), osStat src v = (.ok i, v1) → osStat dst v1 = (.ok i, v2) →
        Lnky src dst v = (none, v2) ∧ v2.names = v.names ∧ v2.data = v.data ∧
          v2.log = v.log ++ [.stat src, .stat dst]) ∧
      ∀ w w1 : World, w.WF → Lnky src dst w = (none, w1) →
      ∃ i, w1.names src = some i ∧
        ((w1.names dst = some i ∧
            (w1.faults w1.clock = none → w1.faults (w1.clock + 1) = none →
              Lnky src dst w1 = (none, (w1.tick (.stat src)).tick (.stat dst)))) ∨
          ∃ j, j ≠ i ∧ w1.names dst = some j ∧ w1.data j = w1.data i ∧
            ((∀ n, n < 8 → w1.faults (w1.clock + n) = none) →
              (Lnky src dst w1).1 = none) ∧
            ∀ w2, Lnky src dst w1 = (none, w2) →
              w2.names dst = some j ∧ w2.data j = w1.data j ∧
                Call.create dst ∈ w2.log.drop w1.log.length) := by
  refine ⟨fun v v1 v2 i h1 h2 => Lnky_same h1 h2, ?_⟩
  intro w w1 hwf h
  obtain ⟨hwf1, i, hi, hcase⟩ := Lnky_post hwf h
  refine ⟨i, hi, ?_⟩
  rcases hcase with hsame | ⟨j, hji, hj, hdata⟩
  · left
    refine ⟨hsame, ?_⟩
    intro hf0 hf1
    have h1 := osStat_of_names hf0 hi
    have h2 : osStat dst (w1.tick (.stat src)) =
        (.ok i, (w1.tick (.stat src)).tick (.stat dst)) :=
      osStat_of_names (w := w1.tick (.stat src)) hf1 hsame
    exact (Lnky_same h1 h2).1
  · right
    refine ⟨j, hji, hj, hdata, Lnky_again_ok hi hj hji, ?_⟩
    intro w2 h2
    obtain ⟨ha, hb, hc⟩ := Lnky_again hwf1 hi hj hji h2
    exact ⟨ha, by rw [hb, hdata], hc⟩

/-- C9 (amended), at concrete inputs. In `worldA` the first `Lnky` of `a.txt` to the
absent `b.txt` makes a hard link and the second call makes the two `Stat` calls and
nothing else. In `worldNoLink` the first call succeeds by copying, `b.txt` is a
separate file, and the second call returns no error and leaves `b.txt` with the three
bytes. -/
theorem Lnky_idempotent_witness :
    (Lnky "a.txt".toList "b.txt".toList worldA).1 = none ∧
      (Lnky "a.txt".toList "b.txt".toList (Lnky "a.txt".toList "b.txt".toList worldA).2).2.log =
        (Lnky "a.txt".toList "b.txt".toList worldA).2.log ++
          [.stat "a.txt".toList, .stat "b.txt".toList] ∧
      (Lnky "a.txt".toList "b.txt".toList worldNoLink).1 = none ∧
      (Lnky "a.txt".toList "b.txt".toList worldNoLink).2.names "b.txt".toList = some 1 ∧
      (Lnky "a.txt".toList "b.txt".toList
        (Lnky "a.txt".toList "b.txt".toList worldNoLink).2).1 = none ∧
      (Lnky "a.txt".toList "b.txt".toList
        (Lnky "a.txt".toList "b.txt".toList worldNoLink).2).2.data 1 = [1, 2, 3] :=
  ⟨rfl,
    ((Lnky_idempotent "a.txt".toList "b.txt".toList).1
      (Lnky "a.txt".toList "b.txt".toList worldA).2 _ _ 0 rfl rfl).2.2.2,
    rfl, rfl,
    match (Lnky_idempotent "a.txt".toList "b.txt".toList).2 worldNoLink
      (Lnky "a.txt".toList "b.txt".toList worldNoLink).2 worldA_WF rfl with
    | ⟨_, hi, Or.inl h⟩ =>
      absurd (hi.symm.trans (show (Lnky "a.txt".toList "b.txt".toList worldNoLink).2.names
        "a.txt".toList = some 0 from rfl)) (fun e =>
          absurd (h.1.symm.trans (show (Lnky "a.txt".toList "b.txt".toList worldNoLink).2.names
            "b.txt".toList = some 1 from rfl)) (by rw [e]; decide))
    | ⟨_, _, Or.inr ⟨_, _, _, _, hok, _⟩⟩ => hok (by decide),
    by decide⟩

/-- C9, as stated, fails when the first call had to copy: where hard links are not
possible, the first `Lnky` of `a.txt` to `b.txt` succeeds by copying, and the second
call, which succeeds too, tries the link again and then opens, truncates and copies
`b.txt` once more. -/
theorem Lnky_counterexample :
    (Lnky "a.txt".toList "b.txt".toList worldNoLink).1 = none ∧
      (Lnky "a.txt".toList "b.txt".toList
        (Lnky "a.txt".toList "b.txt".toList worldNoLink).2).1 = none ∧
      (Lnky "a.txt".toList "b.txt".toList
          (Lnky "a.txt".toList "b.txt".toList worldNoLink).2).2.log.drop
          (Lnky "a.txt".toList "b.txt".toList worldNoLink).2.log.length =
        [.stat "a.txt".toList, .stat "b.txt".toList, .link "a.txt".toList "b.txt".toList,
          .openRead "a.txt".toList, .create "b.txt".toList,
          .copy ⟨"b.txt".toList, 1⟩ ⟨"a.txt".toList, 0⟩, .close ⟨"b.txt".toList, 1⟩,
          .close ⟨"a.txt".toList, 0⟩] := by
  decide

/-! ### The bound on concurrent converter processes -/

theorem validRest_events (j : ConversionJob) : validRest j.events = true := by
  unfold ConversionJob.events runDNGConverter
  cases j.env.removeAll j.output with
  | some e => rfl
  | none =>
    cases j.env.acquireErr with
    | some e => rfl
    | none =>
      simp only
      split <;> rfl

theorem stepCall_spec (held : Nat) (t : List Event) (hv : validRest t = true)
    (hh : permitsHeld t ≤ held) :
    validRest (stepCall held t).2 = true ∧
      (stepCall held t).1 + permitsHeld t = held + permitsHeld (stepCall held t).2 ∧
      (held ≤ semWeight → (stepCall held t).1 ≤ semWeight) := by
  match t, hv, hh with
  | [], _, _ => simp [stepCall, validRest]
  | [.removeAll _], _, _ => simp [stepCall, validRest, permitsHeld]
  | [.removeAll _, .acquireFailed], _, _ => simp [stepCall, validRest, permitsHeld]
  | [.acquireFailed], _, _ => simp [stepCall, validRest, permitsHeld]
  | [.removeAll _, .acquire, .start _ _, .finish, .release], _, _ =>
    simp [stepCall, validRest, permitsHeld]
  | [.acquire, .start _ _, .finish, .release], _, _ =>
    by_cases hc : held + 1 ≤ semWeight
    · simp [stepCall, validRest, permitsHeld, hc]
    · simp [stepCall, validRest, permitsHeld, hc]
  | [.start _ _, .finish, .release], _, _ => simp [stepCall, validRest, permitsHeld]
  | [.finish, .release], _, _ => simp [stepCall, validRest, permitsHeld]
  | [.release], _, hh =>
    simp only [permitsHeld] at hh
    simp only [stepCall, validRest, permitsHeld, true_and]
    omega

theorem stepAt_spec : ∀ (ts : List (List Event)) (k held : Nat),
    (∀ t ∈ ts, validRest t = true) → (ts.map permitsHeld).sum ≤ held →
      (∀ t ∈ (stepAt k held ts).2, validRest t = true) ∧
        (stepAt k held ts).1 + (ts.map permitsHeld).sum =
          held + ((stepAt k held ts).2.map permitsHeld).sum ∧
        (held ≤ semWeight → (stepAt k held ts).1 ≤ semWeight) := by
  intro ts
  induction ts with
  | nil => intro k held _ _; simp [stepAt]
  | cons t ts ih =>
    intro k held hv hh
    simp only [List.map_cons, List.sum_cons] at hh
    cases k with
    | zero =>
      obtain ⟨h1, h2, h3⟩ := stepCall_spec held t (hv t (by simp)) (by omega)
      refine ⟨?_, ?_, h3⟩
      · intro x hx
        simp only [stepAt, List.mem_cons] at hx
        rcases hx with rfl | hx
        · exact h1
        · exact hv x (by simp [hx])
      · simp only [stepAt, List.map_cons, List.sum_cons]
        omega
    | succ k =>
      obtain ⟨h1, h2, h3⟩ := ih k held (fun x hx => hv x (by simp [hx])) (by omega)
      refine ⟨?_, ?_, h3⟩
      · intro x hx
        simp only [stepAt, List.mem_cons] at hx
        rcases hx with rfl | hx
        · exact hv x (by simp)
        · exact h1 x hx
      · simp only [stepAt, List.map_cons, List.sum_cons]
        omega

theorem Inv_initial (jobs : List ConversionJob) : (Converter.initial jobs).Inv := by
  refine ⟨?_, ?_, Nat.zero_le _⟩
  · intro t ht
    simp only [Converter.initial, List.mem_map] at ht
    obtain ⟨j, _, rfl⟩ := ht
    exact validRest_events j
  · simp only [Converter.initial]
    induction jobs with
    | nil => rfl
    | cons j js ih =>
      simp only [List.map_cons, List.sum_cons, ← ih, Nat.add_zero]
      have := validRest_events j
      unfold ConversionJob.events runDNGConverter at this ⊢
      cases j.env.removeAll j.output with
      | some e => rfl
      | none =>
        cases j.env.acquireErr with
        | some e => rfl
        | none =>
          simp only
          split <;> rfl

theorem Inv_step (s : Converter) (k : Nat) (h : s.Inv) : (s.step k).Inv := by
  obtain ⟨hv, hs, hle⟩ := h
  obtain ⟨h1, h2, h3⟩ := stepAt_spec s.calls k s.held hv (by omega)
  refine ⟨h1, ?_, h3 hle⟩
  simp only [Converter.step]
  omega

theorem Inv_run (schedule : List Nat) : ∀ (s : Converter), s.Inv → (s.run schedule).Inv := by
  induction schedule with
  | nil => intro s h; exact h
  | cons k ks ih =>
    intro s h
    exact ih (s.step k) (Inv_step s k h)

theorem running_le_permits (ts : List (List Event)) :
    (ts.filter processRunning).length ≤ (ts.map permitsHeld).sum := by
  induction ts with
  | nil => simp
  | cons t ts ih =>
    simp only [List.filter_cons, List.map_cons, List.sum_cons]
    by_cases hr : processRunning t = true
    · have hp : permitsHeld t = 1 := by
        match t, hr with
        | .finish :: _, _ => rfl
      simp only [hr, if_true, List.length_cons, hp]
      omega
    · simp only [hr, Bool.false_eq_true, if_false]
      omega

/-- C3: however many calls of `runDNGConverter` are made and however they are
interleaved, at most 3 converter processes run at the same time, and at most 3 permits
of the semaphore are in use. Each call that acquires a permit does so before it starts
the process and releases exactly that permit last, whether the tool succeeds or fails;
a call that fails before the acquisition (the removal of the output fails, or the
acquisition fails) starts no process and releases nothing. -/
theorem runDNGConverter_bound (jobs : List ConversionJob) (schedule : List Nat) :
    ((Converter.initial jobs).run schedule).running ≤ 3 ∧
      ((Converter.initial jobs).run schedule).held ≤ 3 ∧
      ∀ j ∈ jobs,
        ((j.env.removeAll j.output = none ∧ j.env.acquireErr = none) →
          ∃ args, j.events =
            [.removeAll j.output, .acquire, .start j.env.DngConverter args, .finish,
              .release]) ∧
        ((j.env.removeAll j.output ≠ none ∨ j.env.acquireErr ≠ none) →
          Event.release ∉ j.events ∧ Event.acquire ∉ j.events ∧
            ∀ name args, Event.start name args ∉ j.events) := by
  have hinv := Inv_run schedule _ (Inv_initial jobs)
  obtain ⟨_, hs, hle⟩ := hinv
  refine ⟨?_, hle, ?_⟩
  · have := running_le_permits ((Converter.initial jobs).run schedule).calls
    simp only [Converter.running]
    simp only [semWeight] at hle
    omega
  · intro j _
    unfold ConversionJob.events runDNGConverter
    constructor
    · rintro ⟨hr, ha⟩
      simp only [hr, ha]
      split <;> exact ⟨_, rfl⟩
    · intro hfail
      cases hr : j.env.removeAll j.output with
      | some e => simp
      | none =>
        cases ha : j.env.acquireErr with
        | some e => simp
        | none => simp [hr, ha] at hfail

/-- C3, at a concrete input: of ten calls made at the same time, once each has
performed three events three have their process running, three permits are in use,
and the other seven are waiting for a permit. -/
theorem runDNGConverter_bound_witness :
    ((Converter.initial tenJobs).run
        ((List.range 10) ++ (List.range 10) ++ (List.range 10))).running = 3 ∧
      ((Converter.initial tenJobs).run
        ((List.range 10) ++ (List.range 10) ++ (List.range 10))).held = 3 ∧
      ((Converter.initial tenJobs).run
        ((List.range 10) ++ (List.range 10) ++ (List.range 10))).running ≤ 3 :=
  ⟨by decide, by decide,
    (runDNGConverter_bound tenJobs ((List.range 10) ++ (List.range 10) ++ (List.range 10))).1⟩

end RethinkRAW
